import Mathlib

/-!
# Verification development for `awesome-ppl`

Two source files are covered.

* `Demo2/Demo2.cpp` : `main` reads `config.yaml` through yaml-cpp and fills
  `configMap : std::unordered_map<int, StageConfig>` for the stages 1..6, then prints
  a report for stage 3.
* `DebugPPL/cuda/dispatcher.h` : the declarations of the GPU dispatch functions.

The first part embeds `main` of `Demo2.cpp`.  yaml-cpp is an external library; the
operations `main` uses (`operator[]` on a non-const `YAML::Node`, `operator!`,
`as<std::string>()`, `as<int>()`) are embedded with the behaviour of the library,
exceptions included.  Nothing in `main` catches an exception, so an exception thrown in
the loop leaves `main` and terminates the program.
-/

namespace Demo2

/-! ## yaml-cpp -/

/-- Exceptions of yaml-cpp that the operations used by `main` can throw. -/
inductive Exn
  | BadSubscript
  | TypedBadConversion
  deriving DecidableEq, Repr

/-- A parsed YAML document (`YAML::Node` as returned by `YAML::LoadFile`): every node of
a parsed document is defined and is a null, a scalar, a sequence or a map.  The keys of a
map are nodes themselves. -/
inductive Node
  | Null
  | Scalar (s : String)
  | Sequence (items : List Node)
  | Map (pairs : List (Node × Node))

/-- What the source leaves to the yaml-cpp build it is linked with.

* `decodeInt` is `convert<int>::decode` on the text of a scalar (stream extraction with
  base detection, the whole text consumed); `none` when the text is not an `int`.
* `nullAsText` tells how `as<std::string>()` answers on a null node: releases from
  0.7.0 on answer the text `"null"` (`true`), older ones throw (`false`). -/
structure YamlCpp where
  decodeInt : String → Option Int
  nullAsText : Bool

/-- Key comparison of `node::equals` for a `std::string` key: the key node has to be a
scalar with the same text. -/
def Node.isKey (key : String) : Node → Bool
  | .Scalar s => s == key
  | _ => false

/-- The `operator[]` of a non-const, defined `YAML::Node` with a `std::string` key
(`node_data::get`).  The result `none` is the undefined node yaml-cpp hands out for a key
that is not there.  A scalar cannot be subscripted (`BadSubscript`).  A null node and a
sequence are turned into a map first; the keys of a converted sequence are its decimal
indices, which none of the keys used by `main` (`Stage<i>`, `DeviceType`, `NumThreads`,
`GridSize`, `BlockSize`) equals, so the answer is the undefined node.  In a map the
first pair with an equal key is taken. -/
def Node.index (n : Node) (key : String) : Except Exn (Option Node) :=
  match n with
  | .Scalar _ => .error .BadSubscript
  | .Null => .ok none
  | .Sequence _ => .ok none
  | .Map pairs => .ok ((pairs.find? (fun kv => Node.isKey key kv.1)).map Prod.snd)

/-- The conversion `as<std::string>()`; the argument `none` is the undefined node. -/
def asString (lib : YamlCpp) : Option Node → Except Exn String
  | none => .error .TypedBadConversion
  | some .Null => if lib.nullAsText then .ok "null" else .error .TypedBadConversion
  | some (.Scalar s) => .ok s
  | some (.Sequence _) => .error .TypedBadConversion
  | some (.Map _) => .error .TypedBadConversion

/-- The conversion `as<int>()`: only a scalar whose text decodes converts. -/
def asInt (lib : YamlCpp) : Option Node → Except Exn Int
  | some (.Scalar s) =>
    match lib.decodeInt s with
    | some n => .ok n
    | none => .error .TypedBadConversion
  | _ => .error .TypedBadConversion

/-- The expression `node[key].as<std::string>()`. -/
def fieldString (lib : YamlCpp) (n : Node) (key : String) : Except Exn String :=
  match n.index key with
  | .error e => .error e
  | .ok v => asString lib v

/-- The expression `node[key].as<int>()`. -/
def fieldInt (lib : YamlCpp) (n : Node) (key : String) : Except Exn Int :=
  match n.index key with
  | .error e => .error e
  | .ok v => asInt lib v

/-! ## `Demo2.cpp` -/

/-- The record `StageConfig` of the source.  `StageConfig stageConfig;` leaves the three
`int` members indeterminate; `none` is a member that was never assigned. -/
structure StageConfig where
  deviceType : String
  numThreads : Option Int
  gridSize : Option Int
  blockSize : Option Int
  deriving DecidableEq, Repr

/-- The table `std::unordered_map<int, StageConfig>` as an association list with at most
one pair per key. -/
abbrev ConfigMap := List (Int × StageConfig)

/-- The call `configMap.find(k)`; `none` is `configMap.end()`. -/
def ConfigMap.find (m : ConfigMap) (k : Int) : Option StageConfig :=
  match m with
  | [] => none
  | (k', v) :: rest => if k' = k then some v else ConfigMap.find rest k

/-- The assignment `configMap[k] = v`: insert, or overwrite the pair of `k`. -/
def ConfigMap.assign (m : ConfigMap) (k : Int) (v : StageConfig) : ConfigMap :=
  (k, v) :: m.filter (fun kv => kv.1 ≠ k)

/-- The key `"Stage" + std::to_string(i)`. -/
def stageKey (i : Int) : String := "Stage" ++ toString i

/-- The line written to `std::cerr` for a stage without an entry. -/
def notFoundMsg (i : Int) : String :=
  "Error: Stage " ++ toString i ++ " not found in configuration file."

/-- The line written to `std::cerr` for a device type that is neither CPU nor GPU. -/
def invalidDeviceMsg (i : Int) : String :=
  "Error: Invalid device type specified for Stage " ++ toString i

/-- The state the loading loop works on: the table and what was written to `std::cerr`. -/
structure Loader where
  configMap : ConfigMap
  cerr : List String
  deriving DecidableEq, Repr

/-- One iteration of the loop `for (int i = 1; i <= 6; ++i)`, lines 26-56.  The test
`!stageNode` (`!IsDefined()`) holds for the undefined node `none` and for no node of the
document.  The answer `.error e` is the exception `e` leaving the body (and `main`,
which has no handler). -/
def loadStage (lib : YamlCpp) (config : Node) (i : Int) (st : Loader) : Except Exn Loader :=
  match config.index (stageKey i) with
  | .error e => .error e
  | .ok none => .ok { st with cerr := st.cerr ++ [notFoundMsg i] }
  | .ok (some stageNode) =>
    match fieldString lib stageNode "DeviceType" with
    | .error e => .error e
    | .ok deviceType =>
      if deviceType = "CPU" then
        match fieldInt lib stageNode "NumThreads" with
        | .error e => .error e
        | .ok n =>
          let stageConfig : StageConfig := ⟨deviceType, some n, none, none⟩
          .ok { st with configMap := st.configMap.assign i stageConfig }
      else if deviceType = "GPU" then
        match fieldInt lib stageNode "GridSize" with
        | .error e => .error e
        | .ok g =>
          match fieldInt lib stageNode "BlockSize" with
          | .error e => .error e
          | .ok b =>
            let stageConfig : StageConfig := ⟨deviceType, none, some g, some b⟩
            .ok { st with configMap := st.configMap.assign i stageConfig }
      else
        .ok { st with cerr := st.cerr ++ [invalidDeviceMsg i] }

/-- The loop over the given stage numbers.  The second component is `some (i, e)` when
the iteration for `i` threw `e`; the state is then the one that iteration started from. -/
def loadLoop (lib : YamlCpp) (config : Node) : List Int → Loader → Loader × Option (Int × Exn)
  | [], st => (st, none)
  | i :: rest, st =>
    match loadStage lib config i st with
    | .ok st' => loadLoop lib config rest st'
    | .error e => (st, some (i, e))

/-- The values `i` takes in `for (int i = 1; i <= 6; ++i)`. -/
def stages : List Int := [1, 2, 3, 4, 5, 6]

/-- A line on `std::cout`: plain text, or a label followed by an `int` member. -/
inductive Line
  | text (s : String)
  | field (label : String) (value : Option Int)
  deriving DecidableEq, Repr

/-- The report on stage 3, lines 60-79: what goes to `std::cout` and to `std::cerr`. -/
def reportStage3 (m : ConfigMap) : List Line × List String :=
  match m.find 3 with
  | some stage3Config =>
    if stage3Config.deviceType = "CPU" then
      ([Line.text ("Stage 3 Device Type: " ++ stage3Config.deviceType),
        Line.field "Number of Threads: " stage3Config.numThreads], [])
    else
      ([Line.text ("Stage 3 Device Type: " ++ stage3Config.deviceType),
        Line.field "Grid Size: " stage3Config.gridSize,
        Line.field "Block Size: " stage3Config.blockSize], [])
  | none => ([], ["Error: Configuration for Stage 3 not found."])

/-- What a run of `main` leaves behind: the table, the lines `main` wrote to `std::cerr`
and to `std::cout`, and how the loop ended.  `uncaught = some (i, e)`: the exception `e`
left the loop in iteration `i` and terminated the program; the table and `cerr` are
then those at that moment and there is no report. -/
structure Run where
  configMap : ConfigMap
  cerr : List String
  cout : List Line
  uncaught : Option (Int × Exn)
  deriving DecidableEq, Repr

/-- The function `main` of `Demo2.cpp`, from the parsed document on. -/
def main (lib : YamlCpp) (config : Node) : Run :=
  match loadLoop lib config stages { configMap := [], cerr := [] } with
  | (st, some x) =>
    { configMap := st.configMap, cerr := st.cerr, cout := [], uncaught := some x }
  | (st, none) =>
    { configMap := st.configMap, cerr := st.cerr ++ (reportStage3 st.configMap).2,
      cout := (reportStage3 st.configMap).1, uncaught := none }

/-- The value of the digit `c` in the given base, `none` when `c` is no digit of it. -/
def digitValue (base : Nat) (c : Char) : Option Nat :=
  let v : Option Nat :=
    if c.isDigit then some (c.toNat - 48)
    else if 'a' ≤ c ∧ c ≤ 'f' then some (c.toNat - 87)
    else if 'A' ≤ c ∧ c ≤ 'F' then some (c.toNat - 55)
    else none
  v.bind (fun d => if d < base then some d else none)

/-- The value of a string of digits of the given base, continuing from `acc`. -/
def digitsValue (base : Nat) : List Char → Nat → Option Nat
  | [], acc => some acc
  | c :: cs, acc =>
    match digitValue base c with
    | some d => digitsValue base cs (base * acc + d)
    | none => none

/-- The value of an unsigned integer text with the base read off its head, as the
stream extraction does once `std::ios::dec` is unset: `0x` or `0X` starts a hexadecimal
number, another leading `0` an octal one, anything else is decimal. -/
def magnitude : List Char → Option Nat
  | [] => none
  | '0' :: 'x' :: d :: ds => digitsValue 16 (d :: ds) 0
  | '0' :: 'X' :: d :: ds => digitsValue 16 (d :: ds) 0
  | '0' :: ds => digitsValue 8 ds 0
  | cs => digitsValue 10 cs 0

/-- The decoder `convert<int>::decode` of yaml-cpp for a 32-bit `int`, on a scalar
without blanks: an optional sign, a number with the base read off its head, the whole
text consumed, the value in the range of `int`. -/
def decodeDecimal (s : String) : Option Int :=
  let value : Option Int :=
    match s.data with
    | '-' :: cs => (magnitude cs).map (fun n => - (n : Int))
    | '+' :: cs => (magnitude cs).map (fun n => (n : Int))
    | cs => (magnitude cs).map (fun n => (n : Int))
  value.bind (fun v => if -2147483648 ≤ v ∧ v ≤ 2147483647 then some v else none)

/-- A yaml-cpp for concrete runs: a release from 0.7.0 on, with `int` of 32 bits. -/
def decimalLib : YamlCpp := { decodeInt := decodeDecimal, nullAsText := true }

/-- The entry `DeviceType: CPU` without `NumThreads`. -/
def cpuNoThreads : Node := .Map [(.Scalar "DeviceType", .Scalar "CPU")]

/-- The entry `DeviceType: CPU, NumThreads: <n>`. -/
def cpuEntry (n : String) : Node :=
  .Map [(.Scalar "DeviceType", .Scalar "CPU"), (.Scalar "NumThreads", .Scalar n)]

/-- The entry `DeviceType: GPU, GridSize: <g>, BlockSize: <b>`. -/
def gpuEntry (g b : String) : Node :=
  .Map [(.Scalar "DeviceType", .Scalar "GPU"), (.Scalar "GridSize", .Scalar g),
        (.Scalar "BlockSize", .Scalar b)]

/-- The loader state `main` starts the loop with. -/
def init : Loader := { configMap := [], cerr := [] }

/-- What one iteration makes of the answer `r` of `config["Stage<i>"]`: an exception, a
line for `std::cerr` (the stage is skipped), or the record to store.  It restates the
body of `loadStage` without the state; `loadStage_eq` ties the two together. -/
def stageResult (lib : YamlCpp) (i : Int) (r : Except Exn (Option Node)) :
    Except Exn (Sum String StageConfig) :=
  match r with
  | .error e => .error e
  | .ok none => .ok (.inl (notFoundMsg i))
  | .ok (some stageNode) =>
    match fieldString lib stageNode "DeviceType" with
    | .error e => .error e
    | .ok deviceType =>
      if deviceType = "CPU" then
        match fieldInt lib stageNode "NumThreads" with
        | .error e => .error e
        | .ok n => .ok (.inr ⟨deviceType, some n, none, none⟩)
      else if deviceType = "GPU" then
        match fieldInt lib stageNode "GridSize" with
        | .error e => .error e
        | .ok g =>
          match fieldInt lib stageNode "BlockSize" with
          | .error e => .error e
          | .ok b => .ok (.inr ⟨deviceType, none, some g, some b⟩)
      else
        .ok (.inl (invalidDeviceMsg i))

/-- The effect of a skipped or stored stage on the loader state. -/
def applyResult (i : Int) (st : Loader) : Sum String StageConfig → Loader
  | .inl msg => { st with cerr := st.cerr ++ [msg] }
  | .inr c => { st with configMap := st.configMap.assign i c }

/-- No exception left the loop in an iteration before `i`: the loop came to iteration
`i`, or past it. -/
def Reaches (lib : YamlCpp) (config : Node) (i : Int) : Prop :=
  ∀ x ∈ (main lib config).uncaught, i ≤ x.1

instance (lib : YamlCpp) (config : Node) (i : Int) : Decidable (Reaches lib config i) := by
  unfold Reaches
  infer_instance

/-- The loader invariant: the keys of the table are stage numbers of `1..6` and every
stored record has the device type CPU or GPU. -/
def TableOk (m : ConfigMap) : Prop :=
  ∀ x ∈ m, 1 ≤ x.1 ∧ x.1 ≤ 6 ∧ (x.2.deviceType = "CPU" ∨ x.2.deviceType = "GPU")

/-- A document with the entry `Stage1: {DeviceType: CPU}` only (no `NumThreads`). -/
def docStage1NoThreads : Node := .Map [(.Scalar "Stage1", cpuNoThreads)]

/-- The entry `stageNode` reads `DeviceType: CPU` and `NumThreads: n`. -/
def CpuEntry (lib : YamlCpp) (stageNode : Node) (n : Int) : Prop :=
  stageNode.index "DeviceType" = .ok (some (.Scalar "CPU")) ∧
  ∃ s, stageNode.index "NumThreads" = .ok (some (.Scalar s)) ∧ lib.decodeInt s = some n

/-- The entry `stageNode` reads `DeviceType: GPU`, `GridSize: g` and `BlockSize: b`. -/
def GpuEntry (lib : YamlCpp) (stageNode : Node) (g b : Int) : Prop :=
  stageNode.index "DeviceType" = .ok (some (.Scalar "GPU")) ∧
  (∃ s, stageNode.index "GridSize" = .ok (some (.Scalar s)) ∧ lib.decodeInt s = some g) ∧
  ∃ s, stageNode.index "BlockSize" = .ok (some (.Scalar s)) ∧ lib.decodeInt s = some b

end Demo2

/-!
## `dispatcher.h`

The header declares the dispatch functions of the GPU pipeline; every one of them has the
shape `void f(int grid_size, int stream_id, pipe& pipe)`.  The bodies and the definition
of `struct pipe` are not among the sources.  The functions are embedded with the
signature of the header (`Int → Int → pipe → pipe` for `void f(int, int, pipe&)`); what
they do to the pipe is modelled from the specification, section by section.
-/

namespace gpu

/-! ### Binary radix tree (specification §3 and §4.4) -/

/-- Modelled from the spec: the count of leading zero bits of `x` as a `w`-bit word, the
primitive behind the "longest-common-prefix length" of two fixed-width keys (§4.4).  It is
not among the sources. -/
def clz : Nat → Nat → Nat
  | 0, _ => 0
  | w + 1, x => if x < 2 ^ w then clz w x + 1 else 0

/-- Modelled from the spec: the longest-common-prefix length of `key[i]` and `key[j]`
(§4.4, "comparing longest-common-prefix lengths of key[i] against neighbors"), with the
value `-1` for a neighbour `j` outside the array.  It is not among the sources. -/
def delta (W : Nat) (keys : List Nat) (i j : Int) : Int :=
  if 0 ≤ j ∧ j < keys.length then
    (clz W (keys.getD i.toNat 0 ^^^ keys.getD j.toNat 0) : Int)
  else -1

/-- Modelled from the spec: a child of an internal node, "each either a leaf index or
another internal node index" (§3).  The type is not among the sources. -/
inductive Child
  | leaf (idx : Int)
  | internal (idx : Int)
  deriving DecidableEq, Repr

/-- Modelled from the spec: an internal node of the radix tree (§3): the key range
`[lo, hi]` it covers, the length of the common prefix of the range (the position of the
highest differing bit between `key[lo]` and `key[hi]`), the split index, the two
children and the parent back-reference (`none` for a node that is no node's child).  The
record is not among the sources. -/
structure RadixNode where
  lo : Int
  hi : Int
  prefixLen : Int
  split : Int
  left : Child
  right : Child
  parent : Option Int
  deriving DecidableEq, Repr

/-- Modelled from the spec: the first loop of the node task of §4.4 ("determine the ...
length of the range"), which doubles the bound `lmax` of the range length while the key
at that distance is still inside the range (`test`).  It is not among the sources. -/
def growRange (test : Int → Bool) : Nat → Int → Int
  | 0, lmax => lmax
  | fuel + 1, lmax => if test lmax then growRange test fuel (lmax * 2) else lmax

/-- Modelled from the spec: the binary search of §4.4 for the range length below the
bound, with the steps `t`, `t / 2`, ..., `1`.  It is not among the sources. -/
def searchLength (test : Int → Bool) : Nat → Int → Int → Int
  | 0, _, l => l
  | fuel + 1, t, l =>
    if 1 ≤ t then searchLength test fuel (t / 2) (if test (l + t) then l + t else l)
    else l

/-- Modelled from the spec: the binary search of §4.4 for the split ("locate the split
point via binary search on prefix length"), with the steps `⌈t/2⌉`, `⌈t/4⌉`, ..., `1`.
It is not among the sources. -/
def searchSplit (test : Int → Bool) : Nat → Int → Int → Int
  | 0, _, s => s
  | fuel + 1, t, s =>
    let t' := (t + 1) / 2
    let s' := if test (s + t') then s + t' else s
    if 1 < t' then searchSplit test fuel t' s' else s'

/-- Modelled from the spec: the task of the internal node `i` (§4.4): "determine the
direction and length of the range it owns by comparing longest-common-prefix lengths of
key[i] against neighbors, then locate the split point via binary search on prefix length;
assign children as leaves or internal nodes based on whether the computed sub-range has
length 1".  The task reads the key array and its own index only.  The three loops run on
a fuel of `keys.length` steps, which `growRange_spec`, `searchLength_spec` and
`searchSplit_spec` show to be enough.  The parent back-reference is not known to the
task; `buildRadixTree` fills it in.  The function is not among the sources. -/
def processNode (W : Nat) (keys : List Nat) (i : Int) : RadixNode :=
  let d : Int := Int.sign (delta W keys i (i + 1) - delta W keys i (i - 1))
  let deltaMin := delta W keys i (i - d)
  let inRange : Int → Bool := fun l => decide (deltaMin < delta W keys i (i + l * d))
  let lmax := growRange inRange keys.length 2
  let l := searchLength inRange keys.length (lmax / 2) 0
  let j := i + l * d
  let deltaNode := delta W keys i j
  let above : Int → Bool := fun s => decide (deltaNode < delta W keys i (i + s * d))
  let s := searchSplit above keys.length l 0
  let gamma := i + s * d + min d 0
  { lo := min i j
    hi := max i j
    prefixLen := deltaNode
    split := gamma
    left := if min i j = gamma then .leaf gamma else .internal gamma
    right := if max i j = gamma + 1 then .leaf (gamma + 1) else .internal (gamma + 1)
    parent := none }

/-- Modelled from the spec: the parent back-reference of the internal node `c` (§3, "used
for lookup only"): the index of the node that has `c` as a child.  It is not among the
sources. -/
def parentOf (nodes : List RadixNode) (c : Int) : Option Int :=
  (nodes.findIdx? (fun nd => decide (nd.left = .internal c ∨ nd.right = .internal c))).map
    Int.ofNat

/-- Modelled from the spec: the radix tree over `M` unique sorted keys (§4.4): one
independent task per internal node index `i` in `[0, M-2]`, each node then given its
parent back-reference; no node for `M ≤ 1` (§4.3).  The function is not among the
sources. -/
def buildRadixTree (W : Nat) (keys : List Nat) : List RadixNode :=
  (List.range (keys.length - 1)).map (fun (i : Nat) =>
    { processNode W keys (Int.ofNat i) with
      parent := parentOf ((List.range (keys.length - 1)).map
        (fun (k : Nat) => processNode W keys (Int.ofNat k))) (Int.ofNat i) })

/-- The leaf `g` is a child of the node. -/
def RadixNode.hasLeaf (nd : RadixNode) (g : Int) : Prop :=
  nd.left = .leaf g ∨ nd.right = .leaf g

instance (nd : RadixNode) (g : Int) : Decidable (nd.hasLeaf g) := by
  unfold RadixNode.hasLeaf
  infer_instance

/-! ### Notions used to state the correctness of the radix tree -/

/-- The common prefix length of the neighbours `key[t]` and `key[t+1]`, `-1` when one
of them is outside the array. -/
def adjacent (W : Nat) (keys : List Nat) (t : Int) : Int :=
  if 0 ≤ t then delta W keys t (t + 1) else -1

/-- The keys `s` and `t` agree above their `m` low bits. -/
def SamePrefix (keys : List Nat) (m s t : Nat) : Prop :=
  keys.getD s 0 / 2 ^ m = keys.getD t 0 / 2 ^ m

/-- What the correctness of the tree rests on, for the prefix lengths `dl` of the keys
and the prefix lengths `a` of neighbours: bounds, the value `-1` outside the array, the
prefix length of a range as the least neighbour prefix length inside it (`dl_iff`), and
that two equal neighbour prefix lengths have a smaller one between them
(`unique_min`). -/
structure RadixCtx (M W : Int) (dl : Int → Int → Int) (a : Int → Int) : Prop where
  two_le : 2 ≤ M
  dl_ge : ∀ i j, -1 ≤ dl i j
  dl_le : ∀ i j, dl i j ≤ W
  a_lt : ∀ t, a t < W
  a_ge : ∀ t, -1 ≤ a t
  a_out : ∀ t, t < 0 ∨ M - 1 ≤ t → a t = -1
  a_in : ∀ t, 0 ≤ t → t < M - 1 → 0 ≤ a t
  dl_iff : ∀ i j c, 0 ≤ i → i < M → -1 ≤ c → c < W →
    (c < dl i j ↔ ∀ t, min i j ≤ t → t < max i j → c < a t)
  unique_min : ∀ s t, 0 ≤ s → s < t → t < M - 1 → a s = a t →
    ∃ u, s < u ∧ u < t ∧ a u < a s

/-- The direction computed by the task of node `i` (the local `d` of `processNode`). -/
def nodeDir (W : Nat) (keys : List Nat) (i : Int) : Int :=
  Int.sign (delta W keys i (i + 1) - delta W keys i (i - 1))

/-- The range length computed by the task of node `i` (the local `l` of
`processNode`). -/
def nodeLen (W : Nat) (keys : List Nat) (i : Int) : Int :=
  let d := nodeDir W keys i
  let deltaMin := delta W keys i (i - d)
  let inRange : Int → Bool := fun l => decide (deltaMin < delta W keys i (i + l * d))
  searchLength inRange keys.length (growRange inRange keys.length 2 / 2) 0

/-- The offset of the split computed by the task of node `i` (the local `s` of
`processNode`). -/
def nodeOffset (W : Nat) (keys : List Nat) (i : Int) : Int :=
  let d := nodeDir W keys i
  let l := nodeLen W keys i
  let deltaNode := delta W keys i (i + l * d)
  let above : Int → Bool := fun s => decide (deltaNode < delta W keys i (i + s * d))
  searchSplit above keys.length l 0

/-- The internal node `i` covers the keys `lo..hi` and splits them after `gamma`, in
terms of the neighbour prefix lengths `a`: `gamma` is the one place of `[lo, hi)` with
the least prefix length, the neighbours just outside the range have a smaller one, and
`i` is the end of the range next to the larger of those two. -/
def NodeChar (a : Int → Int) (M i lo hi gamma : Int) : Prop :=
  0 ≤ lo ∧ lo ≤ gamma ∧ gamma < hi ∧ hi ≤ M - 1 ∧
  (∀ t, lo ≤ t → t < hi → t ≠ gamma → a gamma < a t) ∧
  a (lo - 1) < a gamma ∧ a hi < a gamma ∧
  ((i = lo ∧ a hi ≤ a (lo - 1)) ∨ (i = hi ∧ a (lo - 1) ≤ a hi))

/-! ### Deduplication and edge offsets (specification §4.3, §4.6) -/

/-- Modelled from the spec: the Deduplicator "collapses consecutive equal keys" (§2),
keeping one key of every run.  It is not among the sources. -/
def removeDuplicates : List Nat → List Nat
  | [] => []
  | x :: rest =>
    match rest with
    | [] => [x]
    | y :: _ => if x = y then removeDuplicates rest else x :: removeDuplicates rest

/-- Modelled from the spec: the scan of the EdgeOffsetScanner (§4.6): the "exclusive
prefix sums plus the grand total", as a running sum from `acc`.  It is not among the
sources. -/
def exclusiveScan (acc : Nat) : List Nat → List Nat × Nat
  | [] => ([], acc)
  | c :: cs => (acc :: (exclusiveScan (acc + c) cs).1, (exclusiveScan (acc + c) cs).2)

/-! ### The pipe and the dispatch functions

A dispatch function issues the work of its stage on a queue and returns; the function
of the same name below is what that work writes to the pipe once the queue runs it.
The grid size says how the work is launched and does not change what is written. -/

set_option linter.unusedVariables false

/-- Modelled from the spec: where the de-duplication of a pipe stands: not started,
compacted by the work issued on the queue `stream_id` but not finalized, or finalized;
the unique count "is considered valid" only once the finalize step has run (§4.3, §6).
The type is not among the sources. -/
inductive DedupState
  | notStarted
  | compacted (stream_id : Int)
  | finalized
  deriving DecidableEq, Repr

/-- Modelled from the spec: the run context `struct pipe` (§3), reduced to the buffers the
stages below read and write: the sorted keys, the compacted keys with the unique count
`M`, the radix tree, the edge counts, their offsets and the total.  The header only
declares `struct pipe;`. -/
structure pipe where
  keyWidth : Nat
  sorted_keys : List Nat
  unique_keys : List Nat
  n_unique : Nat
  dedup : DedupState
  brt : List RadixNode
  edge_count : List Nat
  edge_offset : List Nat
  n_oct_nodes : Nat
  deriving DecidableEq, Repr

/-- Modelled from the spec: the work of `dispatch_RemoveDuplicates_async`, the
"parallel compaction work" issued on the queue `stream_id` (§4.3): it compacts the
keys; the unique count is not written, it stays what it was until the finalize step.
Only the declaration is among the sources. -/
def dispatch_RemoveDuplicates_async (grid_size stream_id : Int) (p : pipe) : pipe :=
  { p with unique_keys := removeDuplicates p.sorted_keys, dedup := .compacted stream_id }

/-- Modelled from the spec: `RemoveDuplicates_on_complete`, the "finalize" call, on a
pipe whose queue `stream_id` has completed its work: it finalizes the count `M` when
the compaction was issued "on the same queue" `stream_id` and has run (§4.3, §6), and
otherwise leaves the pipe as it is, not finalized.  The header declares it `void`: it
returns nothing.  Only the declaration is among the sources. -/
def RemoveDuplicates_on_complete (grid_size stream_id : Int) (p : pipe) : pipe :=
  match p.dedup with
  | .compacted s =>
    if s = stream_id then { p with n_unique := p.unique_keys.length, dedup := .finalized }
    else p
  | _ => p

/-- Modelled from the spec: `dispatch_RemoveDuplicates_sync` "blocks until M and the
compacted arrays are available" (§4.3).  Only the declaration is among the sources. -/
def dispatch_RemoveDuplicates_sync (grid_size stream_id : Int) (p : pipe) : pipe :=
  { p with unique_keys := removeDuplicates p.sorted_keys,
           n_unique := (removeDuplicates p.sorted_keys).length,
           dedup := .finalized }

/-- Modelled from the spec: `dispatch_BuildRadixTree` builds the radix tree over the
`M = n_unique` compacted keys of the pipe (§4.4).  Its parameters are those of the
header: the grid size, the stream and the pipe, nothing else.  Only the declaration is
among the sources. -/
def dispatch_BuildRadixTree (grid_size stream_id : Int) (p : pipe) : pipe :=
  { p with brt := buildRadixTree p.keyWidth (p.unique_keys.take p.n_unique) }

/-- Modelled from the spec: `dispatch_EdgeOffset` writes the exclusive prefix sums of
the edge counts and the grand total (§4.6).  Only the declaration is among the
sources. -/
def dispatch_EdgeOffset (grid_size stream_id : Int) (p : pipe) : pipe :=
  { p with edge_offset := (exclusiveScan 0 p.edge_count).1,
           n_oct_nodes := (exclusiveScan 0 p.edge_count).2 }

/-- A pipe with the given sorted keys on which no stage after the sort has run. -/
def freshPipe (W : Nat) (keys : List Nat) : pipe :=
  { keyWidth := W, sorted_keys := keys, unique_keys := [], n_unique := 0,
    dedup := .notStarted, brt := [], edge_count := [], edge_offset := [],
    n_oct_nodes := 0 }

/-- A pipe whose de-duplication is final with the compacted keys `keys`. -/
def finalizedPipe (W : Nat) (keys : List Nat) : pipe :=
  { keyWidth := W, sorted_keys := keys, unique_keys := keys, n_unique := keys.length,
    dedup := .finalized, brt := [], edge_count := [], edge_offset := [],
    n_oct_nodes := 0 }

/-! ### The dispatcher: queues, barriers and the order of execution -/

/-- Modelled from the spec: the stages whose dispatch call "returns immediately after
issuing work" (§5) and that the theorems below follow: the asynchronous
de-duplication, the radix-tree build and the edge-offset scan. -/
inductive Stage
  | RemoveDuplicates_async
  | BuildRadixTree
  | EdgeOffset
  deriving DecidableEq, Repr

/-- Modelled from the spec: a piece of work issued on a queue: the stage with the
"work-group size" and the "queue id" of its dispatch call (§4.8). -/
structure Work where
  stage : Stage
  grid_size : Int
  stream_id : Int
  deriving DecidableEq, Repr

/-- What a piece of work writes to the pipe when its queue runs it. -/
def Work.effect (w : Work) (p : pipe) : pipe :=
  match w.stage with
  | .RemoveDuplicates_async => dispatch_RemoveDuplicates_async w.grid_size w.stream_id p
  | .BuildRadixTree => dispatch_BuildRadixTree w.grid_size w.stream_id p
  | .EdgeOffset => dispatch_EdgeOffset w.grid_size w.stream_id p

/-- Modelled from the spec: the dispatcher with the pipe of one run (§4.8): the number
of its queues, the work issued and not yet run, in issue order over all queues, and
the pipe.  The queue of a piece of work is its `stream_id`. -/
structure Dispatcher where
  n_streams : Int
  pending : List Work
  pipe : pipe
  deriving DecidableEq, Repr

/-- Modelled from the spec: `initialize_dispatcher`, which creates `n_streams` queues
(§4.8, §6); no work is issued yet.  Only the declaration is among the sources. -/
def initialize_dispatcher (n_streams : Int) (p : pipe) : Dispatcher :=
  { n_streams := n_streams, pending := [], pipe := p }

/-- The queue `stream_id` has run all the work issued on it. -/
def idle (pending : List Work) (stream_id : Int) : Bool :=
  pending.all (fun w => w.stream_id != stream_id)

/-- The work the queue `stream_id` runs next: the oldest issued on it and not yet run
("within one queue, strict issue order", §5). -/
def nextWork (pending : List Work) (stream_id : Int) : Option Work :=
  pending.find? (fun w => w.stream_id == stream_id)

/-- Modelled from the spec: what happens on a dispatcher (§4.8, §5, §6).  The host
makes the calls of the header: a dispatch call, which issues work on a queue and
returns; the finalize call `RemoveDuplicates_on_complete`; the blocking
`dispatch_RemoveDuplicates_sync`, `sync_stream` and `sync_device`, each standing where
the call returns.  The device runs the next work of a queue, at a time of its own
choosing: "across queues" there is no order (§5). -/
inductive Event
  | dispatch (w : Work)
  | on_complete (grid_size stream_id : Int)
  | dedup_sync (grid_size stream_id : Int)
  | sync_stream (stream_id : Int)
  | sync_device
  | run (stream_id : Int)
  deriving DecidableEq, Repr

/-- Modelled from the spec: one event on the dispatcher, `none` when it cannot happen.
A dispatch call appends its work to the issued work; the queue must be one of the
`n_streams` created.  The finalize call finalizes only when invoked "after that
queue's prior work completes" (§6); invoked earlier it leaves the count as it is.  A
blocking call returns only once the queue, for `sync_device` every queue, has run all
its work.  A queue runs its oldest work, which is then no longer pending; the work of
a stage is taken as one step. -/
def step (d : Dispatcher) : Event → Option Dispatcher
  | .dispatch w =>
    if 0 ≤ w.stream_id ∧ w.stream_id < d.n_streams then
      some { d with pending := d.pending ++ [w] }
    else none
  | .on_complete g s =>
    if idle d.pending s then some { d with pipe := RemoveDuplicates_on_complete g s d.pipe }
    else some d
  | .dedup_sync g s =>
    if idle d.pending s then some { d with pipe := dispatch_RemoveDuplicates_sync g s d.pipe }
    else none
  | .sync_stream s => if idle d.pending s then some d else none
  | .sync_device => if d.pending = [] then some d else none
  | .run s =>
    match nextWork d.pending s with
    | some w => some { d with pending := d.pending.erase w, pipe := w.effect d.pipe }
    | none => none

/-- The events of a trace in turn, `none` when one of them cannot happen. -/
def exec (d : Dispatcher) : List Event → Option Dispatcher
  | [] => some d
  | e :: es => (step d e).bind (fun d' => exec d' es)

/-- The event leaves the de-duplication and the radix-tree build alone: it is a step of
the device, a barrier, or the dispatch of an edge-offset scan. -/
def Event.isQuiet : Event → Bool
  | .dispatch w => w.stage = .EdgeOffset
  | .on_complete _ _ => false
  | .dedup_sync _ _ => false
  | .sync_stream _ => true
  | .sync_device => true
  | .run _ => true

/-- The event issues work on the queue `stream_id`. -/
def Event.issuesOn (stream_id : Int) : Event → Bool
  | .dispatch w => w.stream_id = stream_id
  | _ => false

/-- The dispatcher `dk` is the state after some number of the events of `tr`. -/
def Reach (d : Dispatcher) (tr : List Event) (dk : Dispatcher) : Prop :=
  ∃ k, exec d (tr.take k) = some dk

/-- No radix-tree build is issued and not yet run. -/
def NoBuild (d : Dispatcher) : Prop :=
  ∀ w ∈ d.pending, w.stage ≠ .BuildRadixTree

/-- No compaction is issued and not yet run. -/
def NoDedup (d : Dispatcher) : Prop :=
  ∀ w ∈ d.pending, w.stage ≠ .RemoveDuplicates_async

/-- Before the kick-off: the sorted keys are `K`, neither a compaction nor a build is
pending. -/
def BeforeKickOff (K : List Nat) (d : Dispatcher) : Prop :=
  d.pipe.sorted_keys = K ∧ NoBuild d ∧ NoDedup d

/-- After the kick-off on the queue `s`: a pending compaction is on `s`, and once none
is pending the keys are compacted by the work of `s`. -/
def KickedOff (K : List Nat) (s : Int) (d : Dispatcher) : Prop :=
  d.pipe.sorted_keys = K ∧ NoBuild d ∧
  (∀ w ∈ d.pending, w.stage = .RemoveDuplicates_async → w.stream_id = s) ∧
  (NoDedup d → d.pipe.dedup = .compacted s ∧ d.pipe.unique_keys = removeDuplicates K)

/-- After the barrier on the queue `s`: the keys are compacted by the work of `s` and
the queue has run all its work. -/
def Compacted (K : List Nat) (s : Int) (d : Dispatcher) : Prop :=
  d.pipe.sorted_keys = K ∧ NoBuild d ∧ NoDedup d ∧
  d.pipe.dedup = .compacted s ∧ d.pipe.unique_keys = removeDuplicates K ∧
  idle d.pending s = true

/-- After the finalize step: the de-duplication is final, with the compacted keys and
their number. -/
def Finalized (K : List Nat) (d : Dispatcher) : Prop :=
  d.pipe.sorted_keys = K ∧ NoDedup d ∧
  d.pipe.dedup = .finalized ∧ d.pipe.unique_keys = removeDuplicates K ∧
  d.pipe.n_unique = (removeDuplicates K).length

/-- A radix-tree build that the device is about to run finds the de-duplication final
and the unique count that of the keys `K`. -/
def BuildReadsFinal (K : List Nat) (d : Dispatcher) : Prop :=
  ∀ s w, nextWork d.pending s = some w → w.stage = .BuildRadixTree →
    d.pipe.dedup = .finalized ∧ d.pipe.n_unique = (removeDuplicates K).length

/-- An example of the order that the caller owes, on two queues: the kick-off on
queue 0, an edge-offset scan issued on queue 1, queue 0 runs, `sync_stream 0`, queue 1
runs, the finalize call on queue 0, the build issued on queue 1, queue 1 runs,
`sync_device`. -/
def orderedTrace : List Event :=
  [.dispatch ⟨.RemoveDuplicates_async, 256, 0⟩, .dispatch ⟨.EdgeOffset, 256, 1⟩, .run 0,
    .sync_stream 0, .run 1, .on_complete 256 0, .dispatch ⟨.BuildRadixTree, 256, 1⟩,
    .run 1, .sync_device]

/-- The dispatcher after the first seven events of `orderedTrace` on the sorted keys
`[1, 1, 2, 5]`: the build is pending on queue 1 and the pipe is finalized with the
three unique keys. -/
def orderedBeforeBuild : Dispatcher :=
  { n_streams := 2, pending := [⟨.BuildRadixTree, 256, 1⟩],
    pipe := { freshPipe 3 [1, 1, 2, 5] with
      unique_keys := [1, 2, 5], n_unique := 3, dedup := .finalized } }

end gpu

namespace Demo2

/-! ### The table -/

theorem find_filter_ne (m : ConfigMap) (k k' : Int) (h : k' ≠ k) :
    ConfigMap.find (m.filter (fun kv => kv.1 ≠ k)) k' = ConfigMap.find m k' := by
  induction m with
  | nil => rfl
  | cons kv rest ih =>
    obtain ⟨a, v⟩ := kv
    rw [List.filter_cons]
    by_cases hak : a = k
    · subst hak
      have hne : a ≠ k' := fun h' => h h'.symm
      have hd : decide ((a, v).1 ≠ a) = false := by simp
      rw [hd]
      simp only [Bool.false_eq_true, if_false, ConfigMap.find, hne]
      exact ih
    · have hd : decide ((a, v).1 ≠ k) = true := by simp [hak]
      rw [hd]
      simp only [if_true, ConfigMap.find]
      rw [ih]

theorem find_assign_self (m : ConfigMap) (k : Int) (v : StageConfig) :
    ConfigMap.find (m.assign k v) k = some v := by
  simp [ConfigMap.assign, ConfigMap.find]

theorem find_assign_ne (m : ConfigMap) (k k' : Int) (v : StageConfig) (h : k' ≠ k) :
    ConfigMap.find (m.assign k v) k' = ConfigMap.find m k' := by
  have hk : k ≠ k' := fun h' => h h'.symm
  simp only [ConfigMap.assign, ConfigMap.find, hk, if_false]
  exact find_filter_ne m k k' h

theorem mem_assign (m : ConfigMap) (k : Int) (v : StageConfig) (x : Int × StageConfig)
    (h : x ∈ m.assign k v) : x = (k, v) ∨ x ∈ m := by
  simp only [ConfigMap.assign, List.mem_cons, List.mem_filter] at h
  rcases h with h | h
  · exact Or.inl h
  · exact Or.inr h.1

/-! ### One iteration -/

theorem loadStage_eq (lib : YamlCpp) (config : Node) (i : Int) (st : Loader) :
    loadStage lib config i st =
      (stageResult lib i (config.index (stageKey i))).map (applyResult i st) := by
  unfold loadStage stageResult
  cases config.index (stageKey i) with
  | error e => rfl
  | ok o =>
    cases o with
    | none => rfl
    | some stageNode =>
      simp only
      cases fieldString lib stageNode "DeviceType" with
      | error e => rfl
      | ok deviceType =>
        simp only
        by_cases hc : deviceType = "CPU"
        · simp only [hc, if_true]
          cases fieldInt lib stageNode "NumThreads" <;> rfl
        · simp only [hc, if_false]
          by_cases hg : deviceType = "GPU"
          · simp only [hg, if_true]
            cases fieldInt lib stageNode "GridSize" with
            | error e => rfl
            | ok g => cases fieldInt lib stageNode "BlockSize" <;> rfl
          · simp only [hg, if_false]
            rfl

theorem stageResult_deviceType (lib : YamlCpp) (i : Int) (r : Except Exn (Option Node))
    (c : StageConfig) (h : stageResult lib i r = .ok (.inr c)) :
    c.deviceType = "CPU" ∨ c.deviceType = "GPU" := by
  unfold stageResult at h
  split at h
  · cases h
  · cases h
  · split at h
    · cases h
    · split at h
      · split at h
        · cases h
        · cases h; left; assumption
      · split at h
        · split at h
          · cases h
          · split at h
            · cases h
            · cases h; right; assumption
        · cases h

/-! ### The loop -/

theorem loadLoop_append (lib : YamlCpp) (config : Node) (l1 l2 : List Int) (st : Loader) :
    loadLoop lib config (l1 ++ l2) st =
      match loadLoop lib config l1 st with
      | (s1, none) => loadLoop lib config l2 s1
      | (s1, some x) => (s1, some x) := by
  induction l1 generalizing st with
  | nil => rfl
  | cons i rest ih =>
    simp only [List.cons_append, loadLoop]
    cases loadStage lib config i st with
    | error e => rfl
    | ok st' => exact ih st'

theorem loadLoop_uncaught_mem (lib : YamlCpp) (config : Node) (l : List Int) (st : Loader)
    (j : Int) (e : Exn) (h : (loadLoop lib config l st).2 = some (j, e)) : j ∈ l := by
  induction l generalizing st with
  | nil => simp [loadLoop] at h
  | cons i rest ih =>
    simp only [loadLoop] at h
    cases hs : loadStage lib config i st with
    | error e' =>
      rw [hs] at h
      simp only [Option.some.injEq, Prod.mk.injEq] at h
      simp [h.1]
    | ok st' =>
      rw [hs] at h
      exact List.mem_cons_of_mem _ (ih st' h)

theorem applyResult_find_ne (i k : Int) (st : Loader) (r : Sum String StageConfig)
    (h : k ≠ i) : (applyResult i st r).configMap.find k = st.configMap.find k := by
  cases r with
  | inl msg => rfl
  | inr c => exact find_assign_ne st.configMap i k c h

theorem applyResult_cerr (i : Int) (st : Loader) (r : Sum String StageConfig) (m : String)
    (h : m ∈ st.cerr) : m ∈ (applyResult i st r).cerr := by
  cases r with
  | inl msg => exact List.mem_append_left _ h
  | inr c => exact h

theorem loadStage_ok (lib : YamlCpp) (config : Node) (i : Int) (st st' : Loader)
    (h : loadStage lib config i st = .ok st') :
    ∃ r, stageResult lib i (config.index (stageKey i)) = .ok r ∧ st' = applyResult i st r := by
  rw [loadStage_eq] at h
  cases hr : stageResult lib i (config.index (stageKey i)) with
  | error e => rw [hr] at h; cases h
  | ok r =>
    rw [hr] at h
    refine ⟨r, rfl, ?_⟩
    cases h
    rfl

theorem loadLoop_find_notMem (lib : YamlCpp) (config : Node) (l : List Int) (st : Loader)
    (k : Int) (h : k ∉ l) :
    (loadLoop lib config l st).1.configMap.find k = st.configMap.find k := by
  induction l generalizing st with
  | nil => rfl
  | cons i rest ih =>
    simp only [List.mem_cons, not_or] at h
    simp only [loadLoop]
    cases hs : loadStage lib config i st with
    | error e => rfl
    | ok st' =>
      obtain ⟨r, -, hst⟩ := loadStage_ok lib config i st st' hs
      simp only
      rw [ih st' h.2, hst]
      exact applyResult_find_ne i k st r h.1

theorem loadLoop_cerr_mono (lib : YamlCpp) (config : Node) (l : List Int) (st : Loader)
    (m : String) (h : m ∈ st.cerr) : m ∈ (loadLoop lib config l st).1.cerr := by
  induction l generalizing st with
  | nil => exact h
  | cons i rest ih =>
    simp only [loadLoop]
    cases hs : loadStage lib config i st with
    | error e => exact h
    | ok st' =>
      obtain ⟨r, -, hst⟩ := loadStage_ok lib config i st st' hs
      simp only
      apply ih st'
      rw [hst]
      exact applyResult_cerr i st r m h

/-- The loop at the iteration for `i`, once the iterations before it are through. -/
theorem loadLoop_at (lib : YamlCpp) (config : Node) (l1 l2 : List Int) (i : Int)
    (st0 s1 : Loader) (h1 : loadLoop lib config l1 st0 = (s1, none)) :
    loadLoop lib config (l1 ++ i :: l2) st0 =
      match stageResult lib i (config.index (stageKey i)) with
      | .error e => (s1, some (i, e))
      | .ok r => loadLoop lib config l2 (applyResult i s1 r) := by
  rw [loadLoop_append, h1]
  simp only [loadLoop]
  rw [loadStage_eq]
  cases stageResult lib i (config.index (stageKey i)) <;> rfl

theorem main_configMap (lib : YamlCpp) (config : Node) :
    (main lib config).configMap = (loadLoop lib config stages init).1.configMap := by
  unfold main init
  split <;> rename_i h <;> rw [h]

theorem main_uncaught (lib : YamlCpp) (config : Node) :
    (main lib config).uncaught = (loadLoop lib config stages init).2 := by
  unfold main init
  split <;> rename_i h <;> rw [h]

theorem main_cerr (lib : YamlCpp) (config : Node) (m : String)
    (h : m ∈ (loadLoop lib config stages init).1.cerr) : m ∈ (main lib config).cerr := by
  unfold main
  unfold init at h
  split <;> rename_i h' <;> rw [h'] at h
  · exact h
  · exact List.mem_append_left _ h

theorem stages_split (i : Int) (h1 : 1 ≤ i) (h6 : i ≤ 6) :
    ∃ l1 l2, stages = l1 ++ i :: l2 ∧ i ∉ l2 ∧ (∀ j ∈ l1, j < i) ∧ ∀ j ∈ l2, i < j := by
  interval_cases i
  · exact ⟨[], [2, 3, 4, 5, 6], rfl, by decide, by decide, by decide⟩
  · exact ⟨[1], [3, 4, 5, 6], rfl, by decide, by decide, by decide⟩
  · exact ⟨[1, 2], [4, 5, 6], rfl, by decide, by decide, by decide⟩
  · exact ⟨[1, 2, 3], [5, 6], rfl, by decide, by decide, by decide⟩
  · exact ⟨[1, 2, 3, 4], [6], rfl, by decide, by decide, by decide⟩
  · exact ⟨[1, 2, 3, 4, 5], [], rfl, by decide, by decide, by decide⟩

/-- Everything a run of `main` does about the stage `i` of `1..6`: either an earlier
iteration threw, or iteration `i` did what `stageResult` says of the entry of `i`. -/
theorem stage_view (lib : YamlCpp) (config : Node) (i : Int) (h1 : 1 ≤ i) (h6 : i ≤ 6) :
    (∃ j e, (main lib config).uncaught = some (j, e) ∧ j < i ∧
        (main lib config).configMap.find i = none) ∨
    (∃ e, stageResult lib i (config.index (stageKey i)) = .error e ∧
        (main lib config).uncaught = some (i, e) ∧
        ∀ k, i ≤ k → (main lib config).configMap.find k = none) ∨
    (∃ msg, stageResult lib i (config.index (stageKey i)) = .ok (.inl msg) ∧
        msg ∈ (main lib config).cerr ∧ (main lib config).configMap.find i = none ∧
        ∀ j e, (main lib config).uncaught = some (j, e) → i < j) ∨
    (∃ c, stageResult lib i (config.index (stageKey i)) = .ok (.inr c) ∧
        (main lib config).configMap.find i = some c ∧
        ∀ j e, (main lib config).uncaught = some (j, e) → i < j) := by
  obtain ⟨l1, l2, hsplit, hi2, hlt, hgt⟩ := stages_split i h1 h6
  have hi1 : i ∉ l1 := fun h => lt_irrefl i (hlt i h)
  rw [main_configMap, main_uncaught, hsplit]
  have h0 : (loadLoop lib config l1 init).1.configMap.find i = none := by
    rw [loadLoop_find_notMem lib config l1 init i hi1]; rfl
  cases hl1 : loadLoop lib config l1 init with
  | mk s1 o =>
    rw [hl1] at h0
    cases o with
    | some x =>
      left
      obtain ⟨j, e⟩ := x
      have hj : j ∈ l1 := loadLoop_uncaught_mem lib config l1 init j e (by rw [hl1])
      refine ⟨j, e, ?_, hlt j hj, ?_⟩
      · rw [loadLoop_append, hl1]
      · rw [loadLoop_append, hl1]; exact h0
    | none =>
      right
      rw [loadLoop_at lib config l1 l2 i init s1 hl1]
      cases hr : stageResult lib i (config.index (stageKey i)) with
      | error e =>
        refine Or.inl ⟨e, rfl, rfl, ?_⟩
        intro k hk
        have hk1 : k ∉ l1 := fun h => absurd (hlt k h) (not_lt.mpr hk)
        have := loadLoop_find_notMem lib config l1 init k hk1
        rw [hl1] at this
        exact this
      | ok r =>
        right
        have hafter : ∀ j e, (loadLoop lib config l2 (applyResult i s1 r)).2 = some (j, e) →
            i < j := fun j e h => hgt j (loadLoop_uncaught_mem lib config l2 _ j e h)
        cases r with
        | inl msg =>
          left
          refine ⟨msg, rfl, ?_, ?_, hafter⟩
          · apply main_cerr
            rw [hsplit, loadLoop_at lib config l1 l2 i init s1 hl1, hr]
            apply loadLoop_cerr_mono
            exact List.mem_append_right _ (List.mem_singleton.mpr rfl)
          · simp only
            rw [loadLoop_find_notMem lib config l2 _ i hi2]
            exact h0
        | inr c =>
          right
          refine ⟨c, rfl, ?_, hafter⟩
          simp only
          rw [loadLoop_find_notMem lib config l2 _ i hi2]
          exact find_assign_self s1.configMap i c

theorem find_some_mem (m : ConfigMap) (k : Int) (c : StageConfig)
    (h : ConfigMap.find m k = some c) : (k, c) ∈ m := by
  induction m with
  | nil => simp [ConfigMap.find] at h
  | cons kv rest ih =>
    obtain ⟨a, v⟩ := kv
    simp only [ConfigMap.find] at h
    split at h
    · rename_i hak
      cases h
      subst hak
      exact List.mem_cons_self _ _
    · exact List.mem_cons_of_mem _ (ih h)

theorem loadLoop_tableOk (lib : YamlCpp) (config : Node) (l : List Int) (st : Loader)
    (hl : ∀ j ∈ l, 1 ≤ j ∧ j ≤ 6) (hst : TableOk st.configMap) :
    TableOk (loadLoop lib config l st).1.configMap := by
  induction l generalizing st with
  | nil => exact hst
  | cons i rest ih =>
    simp only [loadLoop]
    cases hs : loadStage lib config i st with
    | error e => exact hst
    | ok st' =>
      obtain ⟨r, hr, hst'⟩ := loadStage_ok lib config i st st' hs
      simp only
      apply ih st' (fun j hj => hl j (List.mem_cons_of_mem _ hj))
      rw [hst']
      cases r with
      | inl msg => exact hst
      | inr c =>
        intro x hx
        rcases mem_assign st.configMap i c x hx with hx | hx
        · subst hx
          have hi := hl i (List.mem_cons_self _ _)
          exact ⟨hi.1, hi.2, stageResult_deviceType lib i _ c hr⟩
        · exact hst x hx

theorem stages_bounds : ∀ j ∈ stages, (1 : Int) ≤ j ∧ j ≤ 6 := by decide

theorem stageResult_notFound (lib : YamlCpp) (i : Int) :
    stageResult lib i (.ok none) = .ok (.inl (notFoundMsg i)) := rfl

theorem stageResult_invalid (lib : YamlCpp) (i : Int) (stageNode : Node) (s : String)
    (hdev : stageNode.index "DeviceType" = .ok (some (.Scalar s)))
    (hcpu : s ≠ "CPU") (hgpu : s ≠ "GPU") :
    stageResult lib i (.ok (some stageNode)) = .ok (.inl (invalidDeviceMsg i)) := by
  simp [stageResult, fieldString, hdev, asString, hcpu, hgpu]

theorem stageResult_cpu (lib : YamlCpp) (i : Int) (stageNode : Node) (n : Int)
    (h : CpuEntry lib stageNode n) :
    stageResult lib i (.ok (some stageNode)) = .ok (.inr ⟨"CPU", some n, none, none⟩) := by
  obtain ⟨hdev, s, hs, hn⟩ := h
  simp [stageResult, fieldString, fieldInt, hdev, asString, asInt, hs, hn]

theorem stageResult_gpu (lib : YamlCpp) (i : Int) (stageNode : Node) (g b : Int)
    (h : GpuEntry lib stageNode g b) :
    stageResult lib i (.ok (some stageNode)) = .ok (.inr ⟨"GPU", none, some g, some b⟩) := by
  obtain ⟨hdev, ⟨s, hs, hg⟩, t, ht, hb⟩ := h
  simp [stageResult, fieldString, fieldInt, hdev, asString, asInt, hs, hg, ht, hb]

/-- A stage whose iteration skips with the line `msg`: nothing is stored for it, the
iteration does not throw, and the line is on `std::cerr` when the loop reaches it. -/
theorem skipped_stage (lib : YamlCpp) (config : Node) (i : Int) (msg : String)
    (h1 : 1 ≤ i) (h6 : i ≤ 6)
    (hr : stageResult lib i (config.index (stageKey i)) = .ok (.inl msg)) :
    (main lib config).configMap.find i = none ∧
    (∀ st, loadStage lib config i st = .ok { st with cerr := st.cerr ++ [msg] }) ∧
    (∀ e, (main lib config).uncaught ≠ some (i, e)) ∧
    (Reaches lib config i → msg ∈ (main lib config).cerr) := by
  have hst : ∀ st, loadStage lib config i st = .ok { st with cerr := st.cerr ++ [msg] } := by
    intro st
    rw [loadStage_eq, hr]
    rfl
  rcases stage_view lib config i h1 h6 with ⟨j, e, hu, hlt, hf⟩ | ⟨e, hr', -, -⟩ |
      ⟨msg', hr', hmem, hf, hu⟩ | ⟨c, hr', -, -⟩
  · refine ⟨hf, hst, ?_, ?_⟩
    · intro e' he'
      rw [hu] at he'
      simp only [Option.some.injEq, Prod.mk.injEq] at he'
      exact absurd he'.1 (ne_of_lt hlt)
    · intro hreach
      have := hreach (j, e) (by rw [hu]; rfl)
      exact absurd hlt (not_lt.mpr this)
  · rw [hr] at hr'; cases hr'
  · rw [hr] at hr'
    cases hr'
    refine ⟨hf, hst, ?_, fun _ => hmem⟩
    intro e' he'
    exact lt_irrefl i (hu i e' he')
  · rw [hr] at hr'; cases hr'

/-- A stage whose iteration stores the record `c`: whatever the table holds for the
stage is `c`, and it does hold `c` when the loop reaches the stage. -/
theorem stored_stage (lib : YamlCpp) (config : Node) (i : Int) (c : StageConfig)
    (h1 : 1 ≤ i) (h6 : i ≤ 6)
    (hr : stageResult lib i (config.index (stageKey i)) = .ok (.inr c)) :
    (∀ c', (main lib config).configMap.find i = some c' → c' = c) ∧
    (Reaches lib config i → (main lib config).configMap.find i = some c) := by
  rcases stage_view lib config i h1 h6 with ⟨j, e, hu, hlt, hf⟩ | ⟨e, hr', -, -⟩ |
      ⟨msg', hr', -, -, -⟩ | ⟨c', hr', hf, -⟩
  · constructor
    · intro c' hc'
      rw [hf] at hc'
      cases hc'
    · intro hreach
      have := hreach (j, e) (by rw [hu]; rfl)
      exact absurd hlt (not_lt.mpr this)
  · rw [hr] at hr'; cases hr'
  · rw [hr] at hr'; cases hr'
  · rw [hr] at hr'
    cases hr'
    constructor
    · intro c' hc'
      rw [hf] at hc'
      cases hc'
      rfl
    · exact fun _ => hf

/-! ### The claims on the loader of `Demo2.cpp` -/

/-- C1 at a failing input: in the document `Stage1: {DeviceType: CPU}` the stages 2 to 6
have no entry, yet the loader writes no error naming stage 2 (nor any other line):
iteration 1 throws, `NumThreads` being missing, and the exception terminates `main`
before the loop comes to stage 2. -/
theorem missing_stage_unreported_after_abort :
    docStage1NoThreads.index (stageKey 2) = .ok none ∧
    main decimalLib docStage1NoThreads =
      { configMap := [], cerr := [], cout := [],
        uncaught := some (1, .TypedBadConversion) } ∧
    notFoundMsg 2 ∉ (main decimalLib docStage1NoThreads).cerr :=
  ⟨rfl, by decide, by decide⟩

/-- What the loader does about a missing stage, for every document and every stage `i`
of `1..6` without an entry `Stage<i>`: nothing is stored for `i`; the iteration for `i`
writes the error naming `i`, leaves the table alone and goes on (it never throws); and
the error is on `std::cerr` whenever no earlier iteration terminated the program. -/
theorem missing_stage_skipped (lib : YamlCpp) (config : Node) (i : Int)
    (h1 : 1 ≤ i) (h6 : i ≤ 6) (hmiss : config.index (stageKey i) = .ok none) :
    (main lib config).configMap.find i = none ∧
    (∀ st, loadStage lib config i st = .ok { st with cerr := st.cerr ++ [notFoundMsg i] }) ∧
    (∀ e, (main lib config).uncaught ≠ some (i, e)) ∧
    (Reaches lib config i → notFoundMsg i ∈ (main lib config).cerr) :=
  skipped_stage lib config i (notFoundMsg i) h1 h6 (by rw [hmiss]; rfl)

/-- An instance of `missing_stage_skipped`: in the document
`Stage2: {DeviceType: CPU, NumThreads: 4}` the loop reaches stage 1, which has no entry,
and the error naming stage 1 is written. -/
theorem missing_stage_skipped_instance :
    (1 : Int) ≤ 1 ∧ (1 : Int) ≤ 6 ∧
    (Node.Map [(.Scalar "Stage2", cpuEntry "4")]).index (stageKey 1) = .ok none ∧
    Reaches decimalLib (.Map [(.Scalar "Stage2", cpuEntry "4")]) 1 ∧
    notFoundMsg 1 ∈ (main decimalLib (.Map [(.Scalar "Stage2", cpuEntry "4")])).cerr :=
  ⟨by decide, by decide, rfl, by decide,
    (missing_stage_skipped decimalLib (.Map [(.Scalar "Stage2", cpuEntry "4")]) 1
      (by decide) (by decide) rfl).2.2.2 (by decide)⟩

/-- C2 at two failing inputs.  `Stage1` is `DeviceType: CPU` without
`NumThreads`: `as<int>()` throws, nothing is written to `std::cerr`, the well-formed
`Stage2` is never loaded.  `Stage2` is `DeviceType: GPU` without `BlockSize`: the same
in iteration 2, and the well-formed `Stage3` is never loaded. -/
theorem missing_sizing_field_terminates :
    main decimalLib (.Map [(.Scalar "Stage1", cpuNoThreads),
        (.Scalar "Stage2", gpuEntry "4" "8")]) =
      { configMap := [], cerr := [], cout := [],
        uncaught := some (1, .TypedBadConversion) } ∧
    main decimalLib (.Map [(.Scalar "Stage1", cpuEntry "2"),
        (.Scalar "Stage2", .Map [(.Scalar "DeviceType", .Scalar "GPU"),
          (.Scalar "GridSize", .Scalar "4")]),
        (.Scalar "Stage3", cpuEntry "4")]) =
      { configMap := [(1, ⟨"CPU", some 2, none, none⟩)], cerr := [], cout := [],
        uncaught := some (2, .TypedBadConversion) } := by
  decide

/-- The missing sizing field in general: when the loop reaches a stage whose entry reads
`DeviceType: CPU` without `NumThreads`, or `DeviceType: GPU` without `GridSize`, or
`DeviceType: GPU` with an integer `GridSize` and without `BlockSize`, the conversion
throws in that iteration and terminates `main`: nothing is stored for the stage nor
for any later stage, and there is no report. -/
theorem sizing_field_missing_throws (lib : YamlCpp) (config stageNode : Node) (i : Int)
    (h1 : 1 ≤ i) (h6 : i ≤ 6)
    (hentry : config.index (stageKey i) = .ok (some stageNode))
    (hmiss :
      (stageNode.index "DeviceType" = .ok (some (.Scalar "CPU")) ∧
        stageNode.index "NumThreads" = .ok none) ∨
      (stageNode.index "DeviceType" = .ok (some (.Scalar "GPU")) ∧
        stageNode.index "GridSize" = .ok none) ∨
      (stageNode.index "DeviceType" = .ok (some (.Scalar "GPU")) ∧
        (∃ s g, stageNode.index "GridSize" = .ok (some (.Scalar s)) ∧
          lib.decodeInt s = some g) ∧
        stageNode.index "BlockSize" = .ok none))
    (hreach : Reaches lib config i) :
    (main lib config).uncaught = some (i, .TypedBadConversion) ∧
    (∀ k, i ≤ k → (main lib config).configMap.find k = none) ∧
    (main lib config).cout = [] := by
  have hr : stageResult lib i (config.index (stageKey i)) = .error .TypedBadConversion := by
    rw [hentry]
    rcases hmiss with ⟨hd, hn⟩ | ⟨hd, hg⟩ | ⟨hd, ⟨s, g, hs, hg⟩, hb⟩
    · simp [stageResult, fieldString, fieldInt, hd, hn, asString, asInt]
    · simp [stageResult, fieldString, fieldInt, hd, hg, asString, asInt]
    · simp [stageResult, fieldString, fieldInt, hd, hs, hg, hb, asString, asInt]
  rcases stage_view lib config i h1 h6 with ⟨j, e, hu, hlt, hf⟩ | ⟨e, hr', hu, hf⟩ |
      ⟨msg', hr', -, -, -⟩ | ⟨c', hr', -, -⟩
  · exfalso
    have := hreach (j, e) (by rw [hu]; rfl)
    exact absurd hlt (not_lt.mpr this)
  · rw [hr] at hr'
    cases hr'
    refine ⟨hu, hf, ?_⟩
    unfold main at hu ⊢
    split
    · rfl
    · rename_i h
      rw [h] at hu
      cases hu
  · rw [hr] at hr'; cases hr'
  · rw [hr] at hr'; cases hr'

/-- C3 at a failing input: in the document
`Stage1: {DeviceType: CPU}, Stage2: {DeviceType: cpu}` the loader writes no
invalid-device-type error for stage 2 (nor any other line): iteration 1 throws,
`NumThreads` being missing, and the exception terminates `main` before the loop comes
to stage 2. -/
theorem invalid_device_unreported_after_abort :
    (Node.Map [(.Scalar "DeviceType", .Scalar "cpu")]).index "DeviceType"
      = .ok (some (.Scalar "cpu")) ∧
    main decimalLib (.Map [(.Scalar "Stage1", cpuNoThreads),
        (.Scalar "Stage2", .Map [(.Scalar "DeviceType", .Scalar "cpu")])]) =
      { configMap := [], cerr := [], cout := [],
        uncaught := some (1, .TypedBadConversion) } ∧
    invalidDeviceMsg 2 ∉
      (main decimalLib (.Map [(.Scalar "Stage1", cpuNoThreads),
        (.Scalar "Stage2", .Map [(.Scalar "DeviceType", .Scalar "cpu")])])).cerr :=
  ⟨rfl, by decide, by decide⟩

/-- What the loader does about an unknown device type, for every document and every
stage `i` of `1..6` whose entry has a `DeviceType` string other than exactly `CPU` and
exactly `GPU`: nothing is stored for `i`; the iteration for `i` writes the
invalid-device-type error naming `i`, leaves the table alone and goes on (it never
throws); and the error is on `std::cerr` whenever no earlier iteration terminated the
program. -/
theorem invalid_device_skipped (lib : YamlCpp) (config stageNode : Node) (i : Int)
    (s : String) (h1 : 1 ≤ i) (h6 : i ≤ 6)
    (hentry : config.index (stageKey i) = .ok (some stageNode))
    (hdev : stageNode.index "DeviceType" = .ok (some (.Scalar s)))
    (hcpu : s ≠ "CPU") (hgpu : s ≠ "GPU") :
    (main lib config).configMap.find i = none ∧
    (∀ st, loadStage lib config i st =
        .ok { st with cerr := st.cerr ++ [invalidDeviceMsg i] }) ∧
    (∀ e, (main lib config).uncaught ≠ some (i, e)) ∧
    (Reaches lib config i → invalidDeviceMsg i ∈ (main lib config).cerr) :=
  skipped_stage lib config i (invalidDeviceMsg i) h1 h6
    (by rw [hentry]; exact stageResult_invalid lib i stageNode s hdev hcpu hgpu)

/-- An instance of `invalid_device_skipped`: `Stage1: {DeviceType: cpu}` (lower case)
next to a well-formed `Stage2`; the error for stage 1 is written and stage 2 is
loaded. -/
theorem invalid_device_skipped_instance :
    (1 : Int) ≤ 1 ∧ (1 : Int) ≤ 6 ∧ "cpu" ≠ "CPU" ∧ "cpu" ≠ "GPU" ∧
    Reaches decimalLib (.Map [(.Scalar "Stage1", .Map [(.Scalar "DeviceType", .Scalar "cpu")]),
        (.Scalar "Stage2", cpuEntry "4")]) 1 ∧
    invalidDeviceMsg 1 ∈
      (main decimalLib (.Map [(.Scalar "Stage1", .Map [(.Scalar "DeviceType", .Scalar "cpu")]),
        (.Scalar "Stage2", cpuEntry "4")])).cerr ∧
    (main decimalLib (.Map [(.Scalar "Stage1", .Map [(.Scalar "DeviceType", .Scalar "cpu")]),
        (.Scalar "Stage2", cpuEntry "4")])).configMap.find 2
      = some ⟨"CPU", some 4, none, none⟩ :=
  ⟨by decide, by decide, by decide, by decide, by decide,
    (invalid_device_skipped decimalLib
      (.Map [(.Scalar "Stage1", .Map [(.Scalar "DeviceType", .Scalar "cpu")]),
        (.Scalar "Stage2", cpuEntry "4")])
      (.Map [(.Scalar "DeviceType", .Scalar "cpu")]) 1 "cpu"
      (by decide) (by decide) rfl rfl (by decide) (by decide)).2.2.2 (by decide),
    by decide⟩

/-- C4: for every stage `i` of `1..6` with an entry `stageNode`.  If the entry reads
`DeviceType: CPU` with an integer `NumThreads: n`, whatever the table holds for `i` has
`deviceType = "CPU"` and `numThreads = n`; if it reads `DeviceType: GPU` with integers
`GridSize: g` and `BlockSize: b`, whatever the table holds for `i` has
`deviceType = "GPU"`, `gridSize = g` and `blockSize = b`.  In both cases the table does
hold a record for `i` whenever no earlier iteration terminated the program. -/
theorem stored_config_matches (lib : YamlCpp) (config stageNode : Node) (i : Int)
    (h1 : 1 ≤ i) (h6 : i ≤ 6)
    (hentry : config.index (stageKey i) = .ok (some stageNode)) :
    (∀ n, CpuEntry lib stageNode n →
      (∀ c, (main lib config).configMap.find i = some c →
        c.deviceType = "CPU" ∧ c.numThreads = some n) ∧
      (Reaches lib config i → ∃ c, (main lib config).configMap.find i = some c)) ∧
    (∀ g b, GpuEntry lib stageNode g b →
      (∀ c, (main lib config).configMap.find i = some c →
        c.deviceType = "GPU" ∧ c.gridSize = some g ∧ c.blockSize = some b) ∧
      (Reaches lib config i → ∃ c, (main lib config).configMap.find i = some c)) := by
  constructor
  · intro n hcpu
    have hr := stageResult_cpu lib i stageNode n hcpu
    rw [← hentry] at hr
    obtain ⟨hall, hex⟩ := stored_stage lib config i _ h1 h6 hr
    refine ⟨?_, fun hreach => ⟨_, hex hreach⟩⟩
    intro c hc
    rw [hall c hc]
    exact ⟨rfl, rfl⟩
  · intro g b hgpu
    have hr := stageResult_gpu lib i stageNode g b hgpu
    rw [← hentry] at hr
    obtain ⟨hall, hex⟩ := stored_stage lib config i _ h1 h6 hr
    refine ⟨?_, fun hreach => ⟨_, hex hreach⟩⟩
    intro c hc
    rw [hall c hc]
    exact ⟨rfl, rfl, rfl⟩

/-- Witness of C4: the document
`Stage1: {DeviceType: GPU, GridSize: 4, BlockSize: 8}` at stage 1. -/
theorem stored_config_matches_witness :
    (1 : Int) ≤ 1 ∧ (1 : Int) ≤ 6 ∧
    (Node.Map [(.Scalar "Stage1", gpuEntry "4" "8")]).index (stageKey 1)
      = .ok (some (gpuEntry "4" "8")) ∧
    GpuEntry decimalLib (gpuEntry "4" "8") 4 8 ∧
    (∀ c, (main decimalLib (.Map [(.Scalar "Stage1", gpuEntry "4" "8")])).configMap.find 1
        = some c → c.deviceType = "GPU" ∧ c.gridSize = some 4 ∧ c.blockSize = some 8) ∧
    ∃ c, (main decimalLib (.Map [(.Scalar "Stage1", gpuEntry "4" "8")])).configMap.find 1
        = some c :=
  have hg : GpuEntry decimalLib (gpuEntry "4" "8") 4 8 :=
    ⟨rfl, ⟨"4", rfl, by decide⟩, ⟨"8", rfl, by decide⟩⟩
  have h := (stored_config_matches decimalLib (.Map [(.Scalar "Stage1", gpuEntry "4" "8")])
    (gpuEntry "4" "8") 1 (by decide) (by decide) rfl).2 4 8 hg
  ⟨by decide, by decide, rfl, hg, h.1, h.2 (by decide)⟩

/-- C5, as stated, fails: a well-formed entry `Stage7` is never read, the loop stops
after stage 6 (first three parts; the run is complete, nothing is stored for 7).  And a
well-formed `Stage2` is not stored when iteration 1 has terminated the program (last
two parts). -/
theorem stage_seven_not_loaded :
    CpuEntry decimalLib (cpuEntry "4") 4 ∧
    (Node.Map [(.Scalar "Stage7", cpuEntry "4")]).index (stageKey 7)
      = .ok (some (cpuEntry "4")) ∧
    (main decimalLib (.Map [(.Scalar "Stage7", cpuEntry "4")])).uncaught = none ∧
    (main decimalLib (.Map [(.Scalar "Stage7", cpuEntry "4")])).configMap.find 7 = none ∧
    (Node.Map [(.Scalar "Stage1", cpuNoThreads), (.Scalar "Stage2", cpuEntry "4")]).index
      (stageKey 2) = .ok (some (cpuEntry "4")) ∧
    (main decimalLib (.Map [(.Scalar "Stage1", cpuNoThreads),
      (.Scalar "Stage2", cpuEntry "4")])).configMap.find 2 = none :=
  ⟨⟨rfl, "4", rfl, by decide⟩, rfl, by decide, by decide, rfl, by decide⟩

/-- C5 (amended): the loader reads the six stage numbers 1 through 6.  For every
document: a well-formed entry for a stage `i` of `1..6` results in a stored
configuration for `i` whenever no earlier iteration terminated the program; and,
whatever the document holds and however the run ends, nothing is stored for a stage
number outside `1..6`, stage 7 included. -/
theorem stages_one_to_six_stored (lib : YamlCpp) (config : Node) :
    (∀ (i : Int) (stageNode : Node), 1 ≤ i → i ≤ 6 →
      config.index (stageKey i) = .ok (some stageNode) →
      ((∃ n, CpuEntry lib stageNode n) ∨ ∃ g b, GpuEntry lib stageNode g b) →
      Reaches lib config i →
      ∃ c, (main lib config).configMap.find i = some c) ∧
    ∀ k, k < 1 ∨ 6 < k → (main lib config).configMap.find k = none := by
  constructor
  · intro i stageNode h1 h6 hentry hwf hreach
    rcases hwf with ⟨n, hcpu⟩ | ⟨g, b, hgpu⟩
    · have hr := stageResult_cpu lib i stageNode n hcpu
      rw [← hentry] at hr
      exact ⟨_, (stored_stage lib config i _ h1 h6 hr).2 hreach⟩
    · have hr := stageResult_gpu lib i stageNode g b hgpu
      rw [← hentry] at hr
      exact ⟨_, (stored_stage lib config i _ h1 h6 hr).2 hreach⟩
  · intro k hk
    rw [main_configMap]
    have hnot : k ∉ stages := by
      intro hmem
      have := stages_bounds k hmem
      omega
    rw [loadLoop_find_notMem lib config stages init k hnot]
    rfl

/-- Witness of C5 (amended): in the document
`Stage6: {DeviceType: CPU, NumThreads: 4}, Stage7: {DeviceType: CPU, NumThreads: 4}`
stage 6 is reached and stored and stage 7 is not stored; and in the document
`Stage7: {DeviceType: CPU, NumThreads: 4}`, which has no entry for a stage of `1..6`,
stage 7 is not stored. -/
theorem stages_one_to_six_stored_witness :
    Reaches decimalLib
      (.Map [(.Scalar "Stage6", cpuEntry "4"), (.Scalar "Stage7", cpuEntry "4")]) 6 ∧
    (∃ c, (main decimalLib (.Map [(.Scalar "Stage6", cpuEntry "4"),
      (.Scalar "Stage7", cpuEntry "4")])).configMap.find 6 = some c) ∧
    (main decimalLib (.Map [(.Scalar "Stage6", cpuEntry "4"),
      (.Scalar "Stage7", cpuEntry "4")])).configMap.find 7 = none ∧
    (main decimalLib (.Map [(.Scalar "Stage7", cpuEntry "4")])).configMap.find 7 = none :=
  ⟨by decide,
    (stages_one_to_six_stored decimalLib
      (.Map [(.Scalar "Stage6", cpuEntry "4"), (.Scalar "Stage7", cpuEntry "4")])).1
      6 (cpuEntry "4") (by decide) (by decide) rfl
      (Or.inl ⟨4, rfl, "4", rfl, by decide⟩) (by decide),
    (stages_one_to_six_stored decimalLib
      (.Map [(.Scalar "Stage6", cpuEntry "4"), (.Scalar "Stage7", cpuEntry "4")])).2
      7 (Or.inr (by decide)),
    (stages_one_to_six_stored decimalLib
      (.Map [(.Scalar "Stage7", cpuEntry "4")])).2 7 (Or.inr (by decide))⟩

/-- C9: the table satisfies the invariant (every key in `1..6`, every stored device
type exactly `CPU` or exactly `GPU`) after any number `k` of iterations of the loop and
in the final state of `main`; and the report on stage 3 prints its grid-size or
block-size line (the grid-size/block-size branch) only for a record stored with
`deviceType = "GPU"`, whose grid size resp. block size is the value printed. -/
theorem loader_invariant (lib : YamlCpp) (config : Node) (k : Nat) :
    TableOk (loadLoop lib config (stages.take k) init).1.configMap ∧
    TableOk (main lib config).configMap ∧
    ∀ v, (Line.field "Grid Size: " v ∈ (main lib config).cout →
        ∃ c, (main lib config).configMap.find 3 = some c ∧ c.deviceType = "GPU" ∧
          c.gridSize = v) ∧
      (Line.field "Block Size: " v ∈ (main lib config).cout →
        ∃ c, (main lib config).configMap.find 3 = some c ∧ c.deviceType = "GPU" ∧
          c.blockSize = v) := by
  have hinit : TableOk init.configMap := by
    intro x hx
    cases hx
  have hmain : TableOk (main lib config).configMap := by
    rw [main_configMap]
    exact loadLoop_tableOk lib config stages init stages_bounds hinit
  refine ⟨?_, hmain, ?_⟩
  · apply loadLoop_tableOk lib config (stages.take k) init _ hinit
    intro j hj
    exact stages_bounds j (List.mem_of_mem_take hj)
  · intro v
    have hcout : (main lib config).cout = [] ∨
        (main lib config).cout = (reportStage3 (main lib config).configMap).1 := by
      unfold main
      split
      · exact Or.inl rfl
      · exact Or.inr rfl
    have hgpu : ∀ c, (main lib config).configMap.find 3 = some c → c.deviceType ≠ "CPU" →
        c.deviceType = "GPU" := by
      intro c hf hc
      rcases (hmain (3, c) (find_some_mem _ 3 c hf)).2.2 with h' | h'
      · exact absurd h' hc
      · exact h'
    constructor
    · intro hv
      rcases hcout with h | h
      · rw [h] at hv
        cases hv
      · rw [h] at hv
        unfold reportStage3 at hv
        cases hf : (main lib config).configMap.find 3 with
        | none =>
          rw [hf] at hv
          cases hv
        | some c =>
          rw [hf] at hv
          by_cases hc : c.deviceType = "CPU"
          · simp [hc] at hv
          · simp only [hc, if_false, List.mem_cons, Line.field.injEq, List.mem_singleton,
              List.not_mem_nil, or_false] at hv
            rcases hv with hv | hv | hv
            · cases hv
            · exact ⟨c, rfl, hgpu c hf hc, hv.2.symm⟩
            · exact absurd hv.1 (by decide)
    · intro hv
      rcases hcout with h | h
      · rw [h] at hv
        cases hv
      · rw [h] at hv
        unfold reportStage3 at hv
        cases hf : (main lib config).configMap.find 3 with
        | none =>
          rw [hf] at hv
          cases hv
        | some c =>
          rw [hf] at hv
          by_cases hc : c.deviceType = "CPU"
          · simp [hc] at hv
          · simp only [hc, if_false, List.mem_cons, Line.field.injEq, List.mem_singleton,
              List.not_mem_nil, or_false] at hv
            rcases hv with hv | hv | hv
            · cases hv
            · exact absurd hv.1 (by decide)
            · exact ⟨c, rfl, hgpu c hf hc, hv.2.symm⟩

/-- Witness of C9: the document `Stage3: {DeviceType: GPU, GridSize: 4, BlockSize: 8}`;
the report prints the grid-size line for a record stored with the device type GPU. -/
theorem loader_invariant_witness :
    Line.field "Grid Size: " (some 4)
      ∈ (main decimalLib (.Map [(.Scalar "Stage3", gpuEntry "4" "8")])).cout ∧
    ∃ c, (main decimalLib (.Map [(.Scalar "Stage3", gpuEntry "4" "8")])).configMap.find 3
        = some c ∧ c.deviceType = "GPU" ∧ c.gridSize = some 4 :=
  ⟨by decide,
    ((loader_invariant decimalLib (.Map [(.Scalar "Stage3", gpuEntry "4" "8")]) 6).2.2
      (some 4)).1 (by decide)⟩

/-- C10: for two documents with the same entry `Stage<i>` (`i` of `1..6`) on which the
loading loop runs to completion, stage `i` is stored in both tables or in neither, and
when stored the device type and the sizing fields of its mode agree. -/
theorem stage_independence (lib : YamlCpp) (config1 config2 : Node) (i : Int)
    (h1 : 1 ≤ i) (h6 : i ≤ 6)
    (hsame : config1.index (stageKey i) = config2.index (stageKey i))
    (hrun1 : (main lib config1).uncaught = none)
    (hrun2 : (main lib config2).uncaught = none) :
    ((main lib config1).configMap.find i = none ↔
      (main lib config2).configMap.find i = none) ∧
    ∀ a b, (main lib config1).configMap.find i = some a →
      (main lib config2).configMap.find i = some b →
      a.deviceType = b.deviceType ∧
      (a.deviceType = "CPU" → a.numThreads = b.numThreads) ∧
      (a.deviceType = "GPU" → a.gridSize = b.gridSize ∧ a.blockSize = b.blockSize) := by
  have key : (main lib config1).configMap.find i = (main lib config2).configMap.find i := by
    rcases stage_view lib config1 i h1 h6 with ⟨j, e, hu, -, -⟩ | ⟨e, -, hu, -⟩ |
        ⟨msg, hr, -, hf, -⟩ | ⟨c, hr, hf, -⟩
    · rw [hrun1] at hu; cases hu
    · rw [hrun1] at hu; cases hu
    · rcases stage_view lib config2 i h1 h6 with ⟨j, e, hu, -, -⟩ | ⟨e, -, hu, -⟩ |
          ⟨msg', hr', -, hf', -⟩ | ⟨c', hr', hf', -⟩
      · rw [hrun2] at hu; cases hu
      · rw [hrun2] at hu; cases hu
      · rw [hf, hf']
      · rw [hsame, hr'] at hr; cases hr
    · rcases stage_view lib config2 i h1 h6 with ⟨j, e, hu, -, -⟩ | ⟨e, -, hu, -⟩ |
          ⟨msg', hr', -, hf', -⟩ | ⟨c', hr', hf', -⟩
      · rw [hrun2] at hu; cases hu
      · rw [hrun2] at hu; cases hu
      · rw [hsame, hr'] at hr; cases hr
      · rw [hsame, hr'] at hr
        cases hr
        rw [hf, hf']
  refine ⟨by rw [key], ?_⟩
  intro a b ha hb
  rw [key, hb] at ha
  cases ha
  exact ⟨rfl, fun _ => rfl, fun _ => ⟨rfl, rfl⟩⟩

/-- Witness of C10: two documents with the same `Stage1` and different `Stage2`. -/
theorem stage_independence_witness :
    (1 : Int) ≤ 1 ∧ (1 : Int) ≤ 6 ∧
    (Node.Map [(.Scalar "Stage1", cpuEntry "4"), (.Scalar "Stage2", gpuEntry "4" "8")]).index
        (stageKey 1) = (Node.Map [(.Scalar "Stage1", cpuEntry "4")]).index (stageKey 1) ∧
    (main decimalLib (.Map [(.Scalar "Stage1", cpuEntry "4"),
      (.Scalar "Stage2", gpuEntry "4" "8")])).uncaught = none ∧
    (main decimalLib (.Map [(.Scalar "Stage1", cpuEntry "4")])).uncaught = none ∧
    ((main decimalLib (.Map [(.Scalar "Stage1", cpuEntry "4"),
        (.Scalar "Stage2", gpuEntry "4" "8")])).configMap.find 1 = none ↔
      (main decimalLib (.Map [(.Scalar "Stage1", cpuEntry "4")])).configMap.find 1 = none) :=
  ⟨by decide, by decide, rfl, by decide, by decide,
    (stage_independence decimalLib
      (.Map [(.Scalar "Stage1", cpuEntry "4"), (.Scalar "Stage2", gpuEntry "4" "8")])
      (.Map [(.Scalar "Stage1", cpuEntry "4")]) 1 (by decide) (by decide) rfl
      (by decide) (by decide)).1⟩

end Demo2

namespace gpu

/-! ### The edge-offset stage -/

theorem exclusiveScan_length (acc : Nat) (cs : List Nat) :
    (exclusiveScan acc cs).1.length = cs.length := by
  induction cs generalizing acc with
  | nil => rfl
  | cons c cs ih => simp [exclusiveScan, ih]

theorem exclusiveScan_total (acc : Nat) (cs : List Nat) :
    (exclusiveScan acc cs).2 = acc + cs.sum := by
  induction cs generalizing acc with
  | nil => simp [exclusiveScan]
  | cons c cs ih => simp [exclusiveScan, ih, Nat.add_assoc]

theorem exclusiveScan_getD (acc : Nat) (cs : List Nat) (i : Nat) (h : i < cs.length) :
    (exclusiveScan acc cs).1.getD i 0 = acc + (cs.take i).sum := by
  induction cs generalizing acc i with
  | nil => simp at h
  | cons c cs ih =>
    cases i with
    | zero => simp [exclusiveScan]
    | succ i =>
      simp only [List.length_cons, Nat.add_lt_add_iff_right] at h
      simp only [exclusiveScan, List.getD_cons_succ, List.take_succ_cons, List.sum_cons]
      rw [ih (acc + c) i h, Nat.add_assoc]

theorem exclusiveScan_ge (acc : Nat) (cs : List Nat) :
    ∀ x ∈ (exclusiveScan acc cs).1, acc ≤ x := by
  induction cs generalizing acc with
  | nil => intro x hx; cases hx
  | cons c cs ih =>
    intro x hx
    simp only [exclusiveScan, List.mem_cons] at hx
    rcases hx with hx | hx
    · exact le_of_eq hx.symm
    · exact le_trans (Nat.le_add_right acc c) (ih (acc + c) x hx)

theorem exclusiveScan_monotone (acc : Nat) (cs : List Nat) :
    (exclusiveScan acc cs).1.Pairwise (· ≤ ·) := by
  induction cs generalizing acc with
  | nil => exact List.Pairwise.nil
  | cons c cs ih =>
    simp only [exclusiveScan, List.pairwise_cons]
    refine ⟨?_, ih (acc + c)⟩
    intro x hx
    exact le_trans (Nat.le_add_right acc c) (exclusiveScan_ge (acc + c) cs x hx)

theorem exclusiveScan_strict (acc : Nat) (cs : List Nat) (hpos : ∀ c ∈ cs, 0 < c) :
    (exclusiveScan acc cs).1.Pairwise (· < ·) := by
  induction cs generalizing acc with
  | nil => exact List.Pairwise.nil
  | cons c cs ih =>
    simp only [exclusiveScan, List.pairwise_cons]
    refine ⟨?_, ih (acc + c) (fun x hx => hpos x (List.mem_cons_of_mem _ hx))⟩
    intro x hx
    have h1 := exclusiveScan_ge (acc + c) cs x hx
    have h2 := hpos c (List.mem_cons_self _ _)
    omega

/-- C8, as stated, fails: for the edge counts `[1, 0, 2]` the offsets are `[0, 1, 1]`,
the exclusive prefix sums, and they are not strictly increasing. -/
theorem edge_offsets_not_strict :
    (dispatch_EdgeOffset 256 0 { freshPipe 32 [] with edge_count := [1, 0, 2] }).edge_offset
      = [0, 1, 1] ∧
    ¬ (dispatch_EdgeOffset 256 0
        { freshPipe 32 [] with edge_count := [1, 0, 2] }).edge_offset.Pairwise (· < ·) := by
  decide

/-- C8 (amended): for every array of edge counts the edge-offset stage outputs the
exclusive prefix sums of the counts (as many offsets as counts, `offset[i]` the sum of
the counts before `i`, so `offset[0] = 0` and `offset[i+1] = offset[i] + count[i]`), the
offsets are non-decreasing, strictly increasing when every count is positive, and the
reported total is the sum of all edge counts. -/
theorem edge_offset_scan (grid_size stream_id : Int) (p : pipe) :
    (dispatch_EdgeOffset grid_size stream_id p).edge_offset.length = p.edge_count.length ∧
    (∀ i, i < p.edge_count.length →
      (dispatch_EdgeOffset grid_size stream_id p).edge_offset.getD i 0
        = (p.edge_count.take i).sum) ∧
    (0 < p.edge_count.length →
      (dispatch_EdgeOffset grid_size stream_id p).edge_offset.getD 0 0 = 0) ∧
    (∀ i, i + 1 < p.edge_count.length →
      (dispatch_EdgeOffset grid_size stream_id p).edge_offset.getD (i + 1) 0
        = (dispatch_EdgeOffset grid_size stream_id p).edge_offset.getD i 0
          + p.edge_count.getD i 0) ∧
    (dispatch_EdgeOffset grid_size stream_id p).edge_offset.Pairwise (· ≤ ·) ∧
    ((∀ c ∈ p.edge_count, 0 < c) →
      (dispatch_EdgeOffset grid_size stream_id p).edge_offset.Pairwise (· < ·)) ∧
    (dispatch_EdgeOffset grid_size stream_id p).n_oct_nodes = p.edge_count.sum := by
  simp only [dispatch_EdgeOffset]
  refine ⟨exclusiveScan_length 0 _, ?_, ?_, ?_, exclusiveScan_monotone 0 _,
    exclusiveScan_strict 0 _, ?_⟩
  · intro i hi
    rw [exclusiveScan_getD 0 _ i hi, Nat.zero_add]
  · intro h
    rw [exclusiveScan_getD 0 _ 0 h]
    rfl
  · intro i hi
    rw [exclusiveScan_getD 0 _ (i + 1) hi, exclusiveScan_getD 0 _ i (Nat.lt_of_succ_lt hi),
      Nat.zero_add, Nat.zero_add, List.sum_take_succ _ i (Nat.lt_of_succ_lt hi),
      List.getD_eq_getElem _ _ (Nat.lt_of_succ_lt hi)]
  · rw [exclusiveScan_total, Nat.zero_add]

/-- Witness of C8 (amended): the positive edge counts `[2, 1, 3]` give the strictly
increasing offsets `[0, 2, 3]` and the total 6. -/
theorem edge_offset_scan_witness :
    (∀ c ∈ ({ freshPipe 32 [] with edge_count := [2, 1, 3] } : pipe).edge_count, 0 < c) ∧
    (dispatch_EdgeOffset 256 0 { freshPipe 32 [] with edge_count := [2, 1, 3] }).edge_offset
      = [0, 2, 3] ∧
    (dispatch_EdgeOffset 256 0
      { freshPipe 32 [] with edge_count := [2, 1, 3] }).edge_offset.Pairwise (· < ·) ∧
    (dispatch_EdgeOffset 256 0 { freshPipe 32 [] with edge_count := [2, 1, 3] }).n_oct_nodes
      = 6 :=
  ⟨by decide, by decide,
    (edge_offset_scan 256 0 { freshPipe 32 [] with edge_count := [2, 1, 3] }).2.2.2.2.2.1
      (by decide),
    (edge_offset_scan 256 0 { freshPipe 32 [] with edge_count := [2, 1, 3] }).2.2.2.2.2.2⟩

/-! ### The order of de-duplication and radix-tree build -/

theorem exec_append (d : Dispatcher) (a b : List Event) :
    exec d (a ++ b) = (exec d a).bind (fun d' => exec d' b) := by
  induction a generalizing d with
  | nil => rfl
  | cons e es ih =>
    simp only [List.cons_append, exec]
    cases step d e with
    | none => rfl
    | some d' => simpa using ih d'

theorem reach_start (d : Dispatcher) (tr : List Event) : Reach d tr d :=
  ⟨0, by simp [exec]⟩

theorem reach_end (d d' : Dispatcher) (tr : List Event) (h : exec d tr = some d') :
    Reach d tr d' :=
  ⟨tr.length, by simpa using h⟩

theorem reach_cons (d dk : Dispatcher) (e : Event) (tr : List Event)
    (h : Reach d (e :: tr) dk) :
    dk = d ∨ ∃ d', step d e = some d' ∧ Reach d' tr dk := by
  obtain ⟨k, hk⟩ := h
  cases k with
  | zero =>
    left
    simp [exec] at hk
    exact hk.symm
  | succ k =>
    right
    simp only [List.take_succ_cons, exec] at hk
    cases hs : step d e with
    | none => simp [hs] at hk
    | some d' =>
      rw [hs] at hk
      exact ⟨d', rfl, k, by simpa using hk⟩

theorem reach_append (d dk : Dispatcher) (a b : List Event) (h : Reach d (a ++ b) dk) :
    Reach d a dk ∨ ∃ d', exec d a = some d' ∧ Reach d' b dk := by
  obtain ⟨k, hk⟩ := h
  rw [List.take_append_eq_append_take, exec_append] at hk
  by_cases hle : k ≤ a.length
  · left
    have h0 : k - a.length = 0 := by omega
    rw [h0] at hk
    cases ha : exec d (a.take k) with
    | none => simp [ha] at hk
    | some d' =>
      rw [ha] at hk
      simp [exec] at hk
      exact ⟨k, by rw [ha, hk]⟩
  · right
    have hfull : a.take k = a := List.take_of_length_le (by omega)
    rw [hfull] at hk
    cases ha : exec d a with
    | none => simp [ha] at hk
    | some d' =>
      rw [ha] at hk
      exact ⟨d', rfl, k - a.length, by simpa using hk⟩

/-- A property kept by every event of a segment holds in every state the segment
reaches. -/
theorem reach_inv (I : Dispatcher → Prop) (A : Event → Prop)
    (hstep : ∀ d e d', I d → A e → step d e = some d' → I d') :
    ∀ (tr : List Event) (d dk : Dispatcher), I d → (∀ e ∈ tr, A e) → Reach d tr dk → I dk := by
  intro tr
  induction tr with
  | nil =>
    intro d dk hI _ hr
    obtain ⟨k, hk⟩ := hr
    simp [exec] at hk
    rw [← hk]
    exact hI
  | cons e es ih =>
    intro d dk hI hA hr
    rcases reach_cons d dk e es hr with h | ⟨d', hs, hr'⟩
    · rw [h]
      exact hI
    · exact ih d' dk (hstep d e d' hI (hA e (List.mem_cons_self _ _)) hs)
        (fun x hx => hA x (List.mem_cons_of_mem _ hx)) hr'

/-- Extending a trace by one event `e` and a segment `m`: what held in every state
reached keeps holding when `e` takes the final property `I` to `J`, the events of `m`
keep `J`, and `J` gives `P`. -/
theorem reach_extend (P I J : Dispatcher → Prop) (A : Event → Prop) (d : Dispatcher)
    (tr : List Event) (e : Event) (m : List Event)
    (h1 : ∀ dk, Reach d tr dk → P dk) (h2 : ∀ d', exec d tr = some d' → I d')
    (he : ∀ d1 d2, I d1 → step d1 e = some d2 → J d2)
    (hJ : ∀ d1 e' d2, J d1 → A e' → step d1 e' = some d2 → J d2)
    (hm : ∀ e' ∈ m, A e') (hJP : ∀ x, J x → P x) :
    (∀ dk, Reach d (tr ++ e :: m) dk → P dk) ∧
    (∀ d', exec d (tr ++ e :: m) = some d' → J d') := by
  have key : ∀ dk, Reach d (tr ++ e :: m) dk → P dk ∨ J dk := by
    intro dk hr
    rcases reach_append d dk tr (e :: m) hr with h | ⟨d', hd', hr'⟩
    · exact Or.inl (h1 dk h)
    · rcases reach_cons d' dk e m hr' with h | ⟨d2, hs, hr2⟩
      · rw [h]
        exact Or.inl (h1 d' (reach_end d d' tr hd'))
      · exact Or.inr (reach_inv J A hJ m d2 dk (he d' d2 (h2 d' hd') hs) hm hr2)
  constructor
  · intro dk hr
    rcases key dk hr with h | h
    · exact h
    · exact hJP dk h
  · intro d' hd'
    rw [exec_append] at hd'
    cases ha : exec d tr with
    | none => simp [ha] at hd'
    | some d1 =>
      rw [ha] at hd'
      simp only [Option.some_bind, exec] at hd'
      cases hs : step d1 e with
      | none => simp [hs] at hd'
      | some d2 =>
        rw [hs] at hd'
        exact reach_inv J A hJ m d2 d' (he d1 d2 (h2 d1 ha) hs) hm
          (reach_end d2 d' m (by simpa using hd'))

theorem nextWork_mem (pending : List Work) (s : Int) (w : Work)
    (h : nextWork pending s = some w) : w ∈ pending ∧ w.stream_id = s := by
  unfold nextWork at h
  refine ⟨List.mem_of_find?_eq_some h, ?_⟩
  have := List.find?_some h
  simpa using this

theorem idle_iff (pending : List Work) (s : Int) :
    idle pending s = true ↔ ∀ w ∈ pending, w.stream_id ≠ s := by
  simp [idle]

/-- What a quiet event does: nothing to the issued work and the pipe, or it issues an
edge-offset scan, or a queue runs a piece of its pending work. -/
theorem step_quiet (d d' : Dispatcher) (e : Event) (hq : e.isQuiet = true)
    (h : step d e = some d') :
    d' = d ∨
    (∃ w, w.stage = .EdgeOffset ∧ e = .dispatch w ∧
      d' = { d with pending := d.pending ++ [w] }) ∨
    (∃ w, w ∈ d.pending ∧
      d' = { d with pending := d.pending.erase w, pipe := w.effect d.pipe }) := by
  cases e with
  | dispatch w =>
    simp only [Event.isQuiet, decide_eq_true_eq] at hq
    simp only [step] at h
    split at h
    · right; left
      exact ⟨w, hq, rfl, (Option.some.inj h).symm⟩
    · cases h
  | on_complete g s => simp [Event.isQuiet] at hq
  | dedup_sync g s => simp [Event.isQuiet] at hq
  | sync_stream s =>
    simp only [step] at h
    split at h
    · exact Or.inl (Option.some.inj h).symm
    · cases h
  | sync_device =>
    simp only [step] at h
    split at h
    · exact Or.inl (Option.some.inj h).symm
    · cases h
  | run s =>
    simp only [step] at h
    cases hw : nextWork d.pending s with
    | none => simp [hw] at h
    | some w =>
      rw [hw] at h
      right; right
      exact ⟨w, (nextWork_mem _ _ _ hw).1, (Option.some.inj h).symm⟩

theorem effect_sorted_keys (w : Work) (p : pipe) :
    (w.effect p).sorted_keys = p.sorted_keys := by
  unfold Work.effect
  cases w.stage <;> rfl

theorem effect_n_unique (w : Work) (p : pipe) : (w.effect p).n_unique = p.n_unique := by
  unfold Work.effect
  cases w.stage <;> rfl

theorem effect_dedup (w : Work) (p : pipe) (h : w.stage ≠ .RemoveDuplicates_async) :
    (w.effect p).dedup = p.dedup ∧ (w.effect p).unique_keys = p.unique_keys := by
  unfold Work.effect
  cases hs : w.stage with
  | RemoveDuplicates_async => exact absurd hs h
  | BuildRadixTree => exact ⟨rfl, rfl⟩
  | EdgeOffset => exact ⟨rfl, rfl⟩

theorem effect_compaction (w : Work) (p : pipe) (h : w.stage = .RemoveDuplicates_async) :
    (w.effect p).dedup = .compacted w.stream_id ∧
    (w.effect p).unique_keys = removeDuplicates p.sorted_keys := by
  unfold Work.effect
  rw [h]
  exact ⟨rfl, rfl⟩

theorem beforeKickOff_quiet (K : List Nat) (d1 : Dispatcher) (e : Event) (d2 : Dispatcher)
    (hI : BeforeKickOff K d1) (hq : e.isQuiet = true) (hs : step d1 e = some d2) :
    BeforeKickOff K d2 := by
  obtain ⟨hk, hb, hd⟩ := hI
  rcases step_quiet d1 d2 e hq hs with h | ⟨w, hw, -, h⟩ | ⟨w, hw, h⟩
  · rw [h]
    exact ⟨hk, hb, hd⟩
  · subst h
    refine ⟨hk, ?_, ?_⟩
    · intro x hx
      rcases List.mem_append.1 hx with hx | hx
      · exact hb x hx
      · rw [List.mem_singleton.1 hx, hw]
        decide
    · intro x hx
      rcases List.mem_append.1 hx with hx | hx
      · exact hd x hx
      · rw [List.mem_singleton.1 hx, hw]
        decide
  · subst h
    refine ⟨?_, ?_, ?_⟩
    · show (w.effect d1.pipe).sorted_keys = K
      rw [effect_sorted_keys]
      exact hk
    · intro x hx
      exact hb x (List.mem_of_mem_erase hx)
    · intro x hx
      exact hd x (List.mem_of_mem_erase hx)

theorem kickedOff_quiet (K : List Nat) (s : Int) (d1 : Dispatcher) (e : Event)
    (d2 : Dispatcher) (hI : KickedOff K s d1) (hq : e.isQuiet = true)
    (hs : step d1 e = some d2) : KickedOff K s d2 := by
  obtain ⟨hk, hb, hon, hc⟩ := hI
  rcases step_quiet d1 d2 e hq hs with h | ⟨w, hw, -, h⟩ | ⟨w, hw, h⟩
  · rw [h]
    exact ⟨hk, hb, hon, hc⟩
  · subst h
    refine ⟨hk, ?_, ?_, ?_⟩
    · intro x hx
      rcases List.mem_append.1 hx with hx | hx
      · exact hb x hx
      · rw [List.mem_singleton.1 hx, hw]
        decide
    · intro x hx hst
      rcases List.mem_append.1 hx with hx | hx
      · exact hon x hx hst
      · rw [List.mem_singleton.1 hx, hw] at hst
        cases hst
    · intro hnd
      exact hc (fun x hx => hnd x (List.mem_append_left _ hx))
  · subst h
    refine ⟨?_, ?_, ?_, ?_⟩
    · show (w.effect d1.pipe).sorted_keys = K
      rw [effect_sorted_keys]
      exact hk
    · intro x hx
      exact hb x (List.mem_of_mem_erase hx)
    · intro x hx hst
      exact hon x (List.mem_of_mem_erase hx) hst
    · intro hnd
      show (w.effect d1.pipe).dedup = .compacted s ∧
        (w.effect d1.pipe).unique_keys = removeDuplicates K
      by_cases hst : w.stage = .RemoveDuplicates_async
      · have := effect_compaction w d1.pipe hst
        rw [this.1, this.2, hon w hw hst, hk]
        exact ⟨rfl, rfl⟩
      · have := effect_dedup w d1.pipe hst
        rw [this.1, this.2]
        apply hc
        intro x hx
        by_cases hxw : x = w
        · rw [hxw]
          exact hst
        · exact hnd x ((List.mem_erase_of_ne hxw).2 hx)

theorem compacted_quiet (K : List Nat) (s : Int) (d1 : Dispatcher) (e : Event)
    (d2 : Dispatcher) (hI : Compacted K s d1)
    (hq : e.isQuiet = true ∧ e.issuesOn s = false)
    (hs : step d1 e = some d2) : Compacted K s d2 := by
  obtain ⟨hk, hb, hd, hc, hu, hidle⟩ := hI
  rw [idle_iff] at hidle
  rcases step_quiet d1 d2 e hq.1 hs with h | ⟨w, hw, he, h⟩ | ⟨w, hw, h⟩
  · rw [h]
    exact ⟨hk, hb, hd, hc, hu, (idle_iff _ _).2 hidle⟩
  · subst h
    have hne : w.stream_id ≠ s := by
      have := hq.2
      rw [he] at this
      simpa [Event.issuesOn] using this
    refine ⟨hk, ?_, ?_, hc, hu, ?_⟩
    · intro x hx
      rcases List.mem_append.1 hx with hx | hx
      · exact hb x hx
      · rw [List.mem_singleton.1 hx, hw]
        decide
    · intro x hx
      rcases List.mem_append.1 hx with hx | hx
      · exact hd x hx
      · rw [List.mem_singleton.1 hx, hw]
        decide
    · rw [idle_iff]
      intro x hx
      rcases List.mem_append.1 hx with hx | hx
      · exact hidle x hx
      · rw [List.mem_singleton.1 hx]
        exact hne
  · subst h
    have := effect_dedup w d1.pipe (hd w hw)
    refine ⟨?_, ?_, ?_, ?_, ?_, ?_⟩
    · show (w.effect d1.pipe).sorted_keys = K
      rw [effect_sorted_keys]
      exact hk
    · intro x hx
      exact hb x (List.mem_of_mem_erase hx)
    · intro x hx
      exact hd x (List.mem_of_mem_erase hx)
    · show (w.effect d1.pipe).dedup = .compacted s
      rw [this.1]
      exact hc
    · show (w.effect d1.pipe).unique_keys = removeDuplicates K
      rw [this.2]
      exact hu
    · rw [idle_iff]
      intro x hx
      exact hidle x (List.mem_of_mem_erase hx)

theorem finalized_quiet (K : List Nat) (d1 : Dispatcher) (e : Event) (d2 : Dispatcher)
    (hI : Finalized K d1) (hq : e.isQuiet = true) (hs : step d1 e = some d2) :
    Finalized K d2 := by
  obtain ⟨hk, hd, hf, hu, hn⟩ := hI
  rcases step_quiet d1 d2 e hq hs with h | ⟨w, hw, -, h⟩ | ⟨w, hw, h⟩
  · rw [h]
    exact ⟨hk, hd, hf, hu, hn⟩
  · subst h
    refine ⟨hk, ?_, hf, hu, hn⟩
    intro x hx
    rcases List.mem_append.1 hx with hx | hx
    · exact hd x hx
    · rw [List.mem_singleton.1 hx, hw]
      decide
  · subst h
    have := effect_dedup w d1.pipe (hd w hw)
    refine ⟨?_, ?_, ?_, ?_, ?_⟩
    · show (w.effect d1.pipe).sorted_keys = K
      rw [effect_sorted_keys]
      exact hk
    · intro x hx
      exact hd x (List.mem_of_mem_erase hx)
    · show (w.effect d1.pipe).dedup = .finalized
      rw [this.1]
      exact hf
    · show (w.effect d1.pipe).unique_keys = removeDuplicates K
      rw [this.2]
      exact hu
    · show (w.effect d1.pipe).n_unique = (removeDuplicates K).length
      rw [effect_n_unique]
      exact hn

/-- While no build is pending, no build is about to run. -/
theorem buildReadsFinal_of_noBuild (K : List Nat) (d : Dispatcher) (h : NoBuild d) :
    BuildReadsFinal K d := by
  intro s w hw hst
  exact absurd hst (h w (nextWork_mem _ _ _ hw).1)

theorem buildReadsFinal_of_finalized (K : List Nat) (d : Dispatcher) (h : Finalized K d) :
    BuildReadsFinal K d := by
  intro s w _ _
  exact ⟨h.2.2.1, h.2.2.2.2⟩

/-- C6, as stated, fails: the dispatcher accepts a radix-tree build on a pipe whose
asynchronous de-duplication is not finalized.  On the sorted keys `[1, 1, 2, 5]`, which
have three unique keys: (1) kick-off and build issued on queue 0 without the finalize
call: when the build is next on the queue the pipe is compacted, not finalized, the
count is the stale 0, and the tree built is empty, not the two nodes of the three
keys; (2) the finalize call invoked before queue 0 has run the compaction, and the
build issued on queue 1: the build is next on queue 1 on a pipe that is not
finalized; (3) the build issued on queue 1 is next on its queue before queue 0 has run
the compaction. -/
theorem build_accepts_unfinalized_pipe :
    (exec (initialize_dispatcher 1 (freshPipe 3 [1, 1, 2, 5]))
      [.dispatch ⟨.RemoveDuplicates_async, 256, 0⟩, .dispatch ⟨.BuildRadixTree, 256, 0⟩,
        .run 0]).map (fun d => (nextWork d.pending 0, d.pipe.dedup, d.pipe.n_unique))
      = some (some ⟨.BuildRadixTree, 256, 0⟩, .compacted 0, 0) ∧
    (exec (initialize_dispatcher 1 (freshPipe 3 [1, 1, 2, 5]))
      [.dispatch ⟨.RemoveDuplicates_async, 256, 0⟩, .dispatch ⟨.BuildRadixTree, 256, 0⟩,
        .run 0, .run 0, .sync_device]).map (fun d => (d.pipe.dedup, d.pipe.brt))
      = some (.compacted 0, []) ∧
    removeDuplicates [1, 1, 2, 5] = [1, 2, 5] ∧
    (buildRadixTree 3 [1, 2, 5]).length = 2 ∧
    (exec (initialize_dispatcher 2 (freshPipe 3 [1, 1, 2, 5]))
      [.dispatch ⟨.RemoveDuplicates_async, 256, 0⟩, .on_complete 256 0,
        .dispatch ⟨.BuildRadixTree, 256, 1⟩, .run 0]).map
        (fun d => (nextWork d.pending 1, d.pipe.dedup, d.pipe.n_unique))
      = some (some ⟨.BuildRadixTree, 256, 1⟩, .compacted 0, 0) ∧
    (exec (initialize_dispatcher 2 (freshPipe 3 [1, 1, 2, 5]))
      [.dispatch ⟨.RemoveDuplicates_async, 256, 0⟩,
        .dispatch ⟨.BuildRadixTree, 256, 1⟩]).map
        (fun d => (nextWork d.pending 1, d.pipe.dedup, d.pipe.n_unique))
      = some (some ⟨.BuildRadixTree, 256, 1⟩, .notStarted, 0) := by
  decide

/-- C6 (amended): `dispatch_BuildRadixTree` takes the grid size, the queue and the pipe
only, and `RemoveDuplicates_on_complete` returns nothing, so the interface does not
keep the build from a pipe that is not finalized; the order is the duty of the caller.
When the caller kicks the de-duplication off on a queue `s`, waits for that queue
(`sync_stream s` or `sync_device`), invokes `RemoveDuplicates_on_complete` on the same
queue `s` before issuing anything more on it, and only then issues the build, on any
queue, then however the device interleaves the queues, and whatever barriers, steps of
the device and edge-offset dispatches come in between, the build never runs on a pipe
that is not finalized: in every state reached, a build that is next on its queue
finds the de-duplication final and reads the number of unique keys. -/
theorem build_after_finalize (d0 : Dispatcher) (g1 g2 g3 s s3 : Int) (b : Event)
    (pre m1 m2 m3 m4 : List Event)
    (h0 : ∀ w ∈ d0.pending, w.stage = .EdgeOffset)
    (hb : b = .sync_stream s ∨ b = .sync_device)
    (hpre : ∀ e ∈ pre, e.isQuiet = true) (hm1 : ∀ e ∈ m1, e.isQuiet = true)
    (hm2 : ∀ e ∈ m2, e.isQuiet = true ∧ e.issuesOn s = false)
    (hm3 : ∀ e ∈ m3, e.isQuiet = true) (hm4 : ∀ e ∈ m4, e.isQuiet = true)
    (k : Nat) (dk : Dispatcher) (s' : Int) (w : Work)
    (hk : exec d0 ((pre ++ .dispatch ⟨.RemoveDuplicates_async, g1, s⟩ :: m1 ++ b :: m2 ++
      .on_complete g2 s :: m3 ++ .dispatch ⟨.BuildRadixTree, g3, s3⟩ :: m4).take k)
      = some dk)
    (hw : nextWork dk.pending s' = some w) (hst : w.stage = .BuildRadixTree) :
    dk.pipe.dedup = .finalized ∧
    dk.pipe.n_unique = (removeDuplicates d0.pipe.sorted_keys).length := by
  generalize hK : d0.pipe.sorted_keys = K
  have hI0 : BeforeKickOff K d0 := by
    refine ⟨hK, ?_, ?_⟩
    · intro x hx
      rw [h0 x hx]
      decide
    · intro x hx
      rw [h0 x hx]
      decide
  -- the segment before the kick-off
  have hA : (∀ dk, Reach d0 pre dk → BuildReadsFinal K dk) ∧
      (∀ d', exec d0 pre = some d' → BeforeKickOff K d') := by
    constructor
    · intro x hx
      exact buildReadsFinal_of_noBuild K x
        (reach_inv (BeforeKickOff K) (fun e => e.isQuiet = true)
          (beforeKickOff_quiet K) pre d0 x hI0 hpre hx).2.1
    · intro x hx
      exact reach_inv (BeforeKickOff K) (fun e => e.isQuiet = true)
        (beforeKickOff_quiet K) pre d0 x hI0 hpre (reach_end d0 x pre hx)
  -- the kick-off on the queue `s`
  have hB := reach_extend (BuildReadsFinal K) (BeforeKickOff K) (KickedOff K s)
    (fun e => e.isQuiet = true) d0 pre (.dispatch ⟨.RemoveDuplicates_async, g1, s⟩) m1
    hA.1 hA.2
    (by
      intro d1 d2 ⟨hk1, hb1, hd1⟩ hs
      simp only [step] at hs
      split at hs
      · cases hs
        refine ⟨hk1, ?_, ?_, ?_⟩
        · intro x hx
          rcases List.mem_append.1 hx with hx | hx
          · exact hb1 x hx
          · rw [List.mem_singleton.1 hx]
            exact fun h => Stage.noConfusion h
        · intro x hx hstx
          rcases List.mem_append.1 hx with hx | hx
          · exact absurd hstx (hd1 x hx)
          · rw [List.mem_singleton.1 hx]
        · intro hnd
          exact absurd rfl
            (hnd ⟨.RemoveDuplicates_async, g1, s⟩
              (List.mem_append_right _ (List.mem_singleton.2 rfl)))
      · cases hs)
    (kickedOff_quiet K s) hm1
    (fun x hx => buildReadsFinal_of_noBuild K x hx.2.1)
  -- the barrier on the queue `s`
  have hC := reach_extend (BuildReadsFinal K) (KickedOff K s) (Compacted K s)
    (fun e => e.isQuiet = true ∧ e.issuesOn s = false) d0 _ b m2
    hB.1 hB.2
    (by
      intro d1 d2 ⟨hk1, hb1, hon1, hc1⟩ hs
      have hidle : idle d1.pending s = true ∧ d2 = d1 := by
        rcases hb with hb | hb
        · rw [hb] at hs
          simp only [step] at hs
          split at hs
          · rename_i hi
            exact ⟨hi, (Option.some.inj hs).symm⟩
          · cases hs
        · rw [hb] at hs
          simp only [step] at hs
          split at hs
          · rename_i hi
            refine ⟨?_, (Option.some.inj hs).symm⟩
            rw [hi]
            rfl
          · cases hs
      rw [hidle.2]
      have hnd : NoDedup d1 := by
        intro x hx hstx
        exact (idle_iff _ _).1 hidle.1 x hx (hon1 x hx hstx)
      exact ⟨hk1, hb1, hnd, (hc1 hnd).1, (hc1 hnd).2, hidle.1⟩)
    (compacted_quiet K s) hm2
    (fun x hx => buildReadsFinal_of_noBuild K x hx.2.1)
  -- the finalize call on the queue `s`
  have hD := reach_extend (BuildReadsFinal K) (Compacted K s)
    (fun d => Finalized K d ∧ NoBuild d)
    (fun e => e.isQuiet = true) d0 _ (.on_complete g2 s) m3
    hC.1 hC.2
    (by
      intro d1 d2 ⟨hk1, hb1, hd1, hc1, hu1, hi1⟩ hs
      simp only [step, hi1, if_true] at hs
      cases hs
      simp only [RemoveDuplicates_on_complete, hc1, if_true]
      exact ⟨⟨hk1, hd1, rfl, hu1, by show d1.pipe.unique_keys.length = _; rw [hu1]⟩, hb1⟩)
    (by
      intro d1 e d2 ⟨hf, hnb⟩ hq hs
      refine ⟨finalized_quiet K d1 e d2 hf hq hs, ?_⟩
      rcases step_quiet d1 d2 e hq hs with h | ⟨x, hx, -, h⟩ | ⟨x, hx, h⟩
      · rw [h]
        exact hnb
      · subst h
        intro y hy
        rcases List.mem_append.1 hy with hy | hy
        · exact hnb y hy
        · rw [List.mem_singleton.1 hy, hx]
          decide
      · subst h
        intro y hy
        exact hnb y (List.mem_of_mem_erase hy))
    hm3
    (fun x hx => buildReadsFinal_of_noBuild K x hx.2)
  -- the dispatch of the build
  have hE := reach_extend (BuildReadsFinal K) (fun d => Finalized K d ∧ NoBuild d)
    (Finalized K) (fun e => e.isQuiet = true) d0 _
    (.dispatch ⟨.BuildRadixTree, g3, s3⟩) m4
    hD.1 hD.2
    (by
      intro d1 d2 ⟨⟨hk1, hd1, hf1, hu1, hn1⟩, _⟩ hs
      simp only [step] at hs
      split at hs
      · cases hs
        refine ⟨hk1, ?_, hf1, hu1, hn1⟩
        intro x hx
        rcases List.mem_append.1 hx with hx | hx
        · exact hd1 x hx
        · rw [List.mem_singleton.1 hx]
          exact fun h => Stage.noConfusion h
      · cases hs)
    (finalized_quiet K) hm4
    (buildReadsFinal_of_finalized K)
  exact hE.1 dk ⟨k, hk⟩ s' w hw hst

/-- Witness of C6 (amended): `orderedTrace` on two queues and the sorted keys
`[1, 1, 2, 5]`: after its first seven events the build is next on queue 1, the eighth
event runs it, and it finds a finalized pipe with the count 3 of the unique keys. -/
theorem build_after_finalize_witness :
    exec (initialize_dispatcher 2 (freshPipe 3 [1, 1, 2, 5])) (orderedTrace.take 7)
      = some orderedBeforeBuild ∧
    orderedTrace[7]? = some (.run 1) ∧
    nextWork orderedBeforeBuild.pending 1 = some ⟨.BuildRadixTree, 256, 1⟩ ∧
    orderedBeforeBuild.pipe.dedup = .finalized ∧
    orderedBeforeBuild.pipe.n_unique = (removeDuplicates [1, 1, 2, 5]).length :=
  ⟨by decide, by decide, by decide,
    build_after_finalize (initialize_dispatcher 2 (freshPipe 3 [1, 1, 2, 5]))
      256 256 256 0 1 (.sync_stream 0)
      [] [.dispatch ⟨.EdgeOffset, 256, 1⟩, .run 0] [.run 1] [] [.run 1, .sync_device]
      (by decide) (Or.inl rfl) (by decide) (by decide) (by decide) (by decide) (by decide)
      7 orderedBeforeBuild 1 ⟨.BuildRadixTree, 256, 1⟩ (by decide) (by decide) rfl⟩

/-! ### Prefix lengths of sorted keys -/

theorem clz_le (w x : Nat) : clz w x ≤ w := by
  induction w with
  | zero => simp [clz]
  | succ w ih =>
    simp only [clz]
    split <;> omega

theorem le_clz_iff (w x p : Nat) (hx : x < 2 ^ w) (hp : p ≤ w) :
    p ≤ clz w x ↔ x < 2 ^ (w - p) := by
  induction w generalizing p with
  | zero =>
    have : p = 0 := by omega
    subst this
    simp [clz] at hx ⊢
    exact hx
  | succ w ih =>
    simp only [clz]
    by_cases hlt : x < 2 ^ w
    · simp only [hlt, if_true]
      cases p with
      | zero => simp; exact hx
      | succ p =>
        have hp' : p ≤ w := by omega
        rw [Nat.add_le_add_iff_right, ih p hlt hp']
        simp
    · simp only [hlt, if_false]
      constructor
      · intro h
        have : p = 0 := by omega
        subst this
        simpa using hx
      · intro h
        by_contra hne
        have hp1 : 1 ≤ p := by omega
        have : 2 ^ (w + 1 - p) ≤ 2 ^ w := Nat.pow_le_pow_right (by norm_num) (by omega)
        omega

theorem xor_lt_two_pow_iff (a b m : Nat) : a ^^^ b < 2 ^ m ↔ a / 2 ^ m = b / 2 ^ m := by
  constructor
  · intro h
    apply Nat.eq_of_testBit_eq
    intro i
    rw [← Nat.shiftRight_eq_div_pow, ← Nat.shiftRight_eq_div_pow, Nat.testBit_shiftRight,
      Nat.testBit_shiftRight]
    have hlt : a ^^^ b < 2 ^ (m + i) :=
      lt_of_lt_of_le h (Nat.pow_le_pow_right (by norm_num) (by omega))
    have := Nat.testBit_lt_two_pow hlt
    rw [Nat.testBit_xor] at this
    revert this
    cases a.testBit (m + i) <;> cases b.testBit (m + i) <;> simp
  · intro h
    apply Nat.lt_pow_two_of_testBit
    intro i hi
    rw [Nat.testBit_xor]
    have h1 : (a / 2 ^ m).testBit (i - m) = (b / 2 ^ m).testBit (i - m) := by rw [h]
    rw [← Nat.shiftRight_eq_div_pow, ← Nat.shiftRight_eq_div_pow, Nat.testBit_shiftRight,
      Nat.testBit_shiftRight] at h1
    have e : m + (i - m) = i := by omega
    rw [e] at h1
    rw [h1]
    simp


theorem key_strict (keys : List Nat) (hs : keys.Pairwise (· < ·)) (s t : Nat)
    (hst : s < t) (ht : t < keys.length) : keys.getD s 0 < keys.getD t 0 := by
  rw [List.getD_eq_getElem _ _ (lt_trans hst ht), List.getD_eq_getElem _ _ ht]
  exact List.pairwise_iff_getElem.mp hs s t (lt_trans hst ht) ht hst

theorem key_mono (keys : List Nat) (hs : keys.Pairwise (· < ·)) (s t : Nat)
    (hst : s ≤ t) (ht : t < keys.length) : keys.getD s 0 ≤ keys.getD t 0 := by
  rcases Nat.eq_or_lt_of_le hst with h | h
  · rw [h]
  · exact le_of_lt (key_strict keys hs s t h ht)

theorem key_bound (W : Nat) (keys : List Nat) (hb : ∀ k ∈ keys, k < 2 ^ W) (t : Nat)
    (ht : t < keys.length) : keys.getD t 0 < 2 ^ W := by
  rw [List.getD_eq_getElem _ _ ht]
  exact hb _ (List.getElem_mem ht)

theorem samePrefix_between (keys : List Nat) (hs : keys.Pairwise (· < ·)) (m s u t : Nat)
    (hsu : s ≤ u) (hut : u ≤ t) (ht : t < keys.length) (h : SamePrefix keys m s t) :
    SamePrefix keys m s u ∧ SamePrefix keys m u t := by
  unfold SamePrefix at *
  have h1 := Nat.div_le_div_right (c := 2 ^ m) (key_mono keys hs s u hsu (lt_of_le_of_lt hut ht))
  have h2 := Nat.div_le_div_right (c := 2 ^ m) (key_mono keys hs u t hut ht)
  omega

theorem samePrefix_chain (keys : List Nat) (m s : Nat) (n : Nat)
    (h : ∀ u, s ≤ u → u < s + n → SamePrefix keys m u (u + 1)) :
    SamePrefix keys m s (s + n) := by
  induction n with
  | zero => rfl
  | succ n ih =>
    have h1 := ih (fun u hu hlt => h u hu (by omega))
    have h2 := h (s + n) (by omega) (by omega)
    unfold SamePrefix at *
    rw [h1, ← Nat.add_assoc, h2]

/-- The comparison `c < delta i j` for indices inside the array. -/
theorem lt_delta_iff (W : Nat) (keys : List Nat) (hb : ∀ k ∈ keys, k < 2 ^ W) (i j : Nat)
    (hi : i < keys.length) (hj : j < keys.length) (c : Int) (hc : -1 ≤ c) (hcW : c < W) :
    c < delta W keys i j ↔ SamePrefix keys (W - (c + 1).toNat) i j := by
  have hx : keys.getD i 0 ^^^ keys.getD j 0 < 2 ^ W :=
    Nat.xor_lt_two_pow (key_bound W keys hb i hi) (key_bound W keys hb j hj)
  have hp : (c + 1).toNat ≤ W := by omega
  unfold delta SamePrefix
  have hj' : (0 : Int) ≤ (j : Int) ∧ (j : Int) < keys.length := ⟨by omega, by omega⟩
  rw [if_pos hj', Int.toNat_ofNat, Int.toNat_ofNat, ← xor_lt_two_pow_iff,
    ← le_clz_iff W _ _ hx hp]
  omega

theorem delta_out (W : Nat) (keys : List Nat) (i j : Int)
    (hj : j < 0 ∨ (keys.length : Int) ≤ j) : delta W keys i j = -1 := by
  unfold delta
  rw [if_neg]
  omega

theorem delta_bounds (W : Nat) (keys : List Nat) (i j : Int) :
    -1 ≤ delta W keys i j ∧ delta W keys i j ≤ W := by
  unfold delta
  split
  · have := clz_le W (keys.getD i.toNat 0 ^^^ keys.getD j.toNat 0)
    omega
  · omega


theorem adjacent_out (W : Nat) (keys : List Nat) (t : Int)
    (ht : t < 0 ∨ (keys.length : Int) - 1 ≤ t) : adjacent W keys t = -1 := by
  unfold adjacent
  split
  · exact delta_out W keys t (t + 1) (by omega)
  · rfl

theorem adjacent_nat (W : Nat) (keys : List Nat) (n : Nat) :
    adjacent W keys (n : Int) = delta W keys n ((n + 1 : Nat) : Int) := by
  unfold adjacent
  rw [if_pos (by omega)]
  rfl

theorem lt_adjacent_iff (W : Nat) (keys : List Nat) (hb : ∀ k ∈ keys, k < 2 ^ W) (n : Nat)
    (hn : n + 1 < keys.length) (c : Int) (hc : -1 ≤ c) (hcW : c < W) :
    c < adjacent W keys (n : Int) ↔ SamePrefix keys (W - (c + 1).toNat) n (n + 1) := by
  rw [adjacent_nat]
  exact lt_delta_iff W keys hb n (n + 1) (by omega) hn c hc hcW

theorem samePrefix_symm (keys : List Nat) (m s t : Nat) (h : SamePrefix keys m s t) :
    SamePrefix keys m t s := h.symm

/-- The comparison `c < delta i j` for `i ≤ j` inside the array, by neighbours. -/
theorem lt_delta_iff_forall (W : Nat) (keys : List Nat) (hs : keys.Pairwise (· < ·))
    (hb : ∀ k ∈ keys, k < 2 ^ W) (n k : Nat) (hnk : n ≤ k) (hk : k < keys.length)
    (c : Int) (hc : -1 ≤ c) (hcW : c < W) :
    SamePrefix keys (W - (c + 1).toNat) n k ↔
      ∀ t : Int, (n : Int) ≤ t → t < (k : Int) → c < adjacent W keys t := by
  constructor
  · intro h t h1 h2
    obtain ⟨u, rfl⟩ := Int.eq_ofNat_of_zero_le (le_trans (by omega) h1)
    have hu1 : n ≤ u := by omega
    have hu2 : u < k := by omega
    rw [lt_adjacent_iff W keys hb u (by omega) c hc hcW]
    have h3 := (samePrefix_between keys hs _ n u k hu1 (by omega) hk h).2
    exact (samePrefix_between keys hs _ u (u + 1) k (by omega) (by omega) hk h3).1
  · intro h
    obtain ⟨d, rfl⟩ := Nat.exists_eq_add_of_le hnk
    apply samePrefix_chain
    intro u hu1 hu2
    rw [← lt_adjacent_iff W keys hb u (by omega) c hc hcW]
    exact h u (by omega) (by omega)

theorem radixCtx_of_keys (W : Nat) (keys : List Nat) (hM : 2 ≤ keys.length)
    (hs : keys.Pairwise (· < ·)) (hb : ∀ k ∈ keys, k < 2 ^ W) :
    RadixCtx keys.length W (delta W keys) (adjacent W keys) where
  two_le := by omega
  dl_ge := fun i j => (delta_bounds W keys i j).1
  dl_le := fun i j => (delta_bounds W keys i j).2
  a_ge := by
    intro t
    unfold adjacent
    split
    · exact (delta_bounds W keys _ _).1
    · exact le_refl _
  a_out := adjacent_out W keys
  a_in := by
    intro t h0 h1
    obtain ⟨n, rfl⟩ := Int.eq_ofNat_of_zero_le h0
    rw [adjacent_nat]
    unfold delta
    rw [if_pos (by omega)]
    omega
  a_lt := by
    intro t
    by_cases ht : t < 0 ∨ (keys.length : Int) - 1 ≤ t
    · rw [adjacent_out W keys t ht]
      omega
    · obtain ⟨n, rfl⟩ := Int.eq_ofNat_of_zero_le (by omega : 0 ≤ t)
      have hn : n + 1 < keys.length := by omega
      by_contra hge
      have hlt : ((W : Int) - 1) < adjacent W keys (n : Int) := by omega
      rw [lt_adjacent_iff W keys hb n hn _ (by omega) (by omega)] at hlt
      have e : W - ((W : Int) - 1 + 1).toNat = 0 := by
        have : ((W : Int) - 1 + 1).toNat = W := by omega
        omega
      rw [e] at hlt
      unfold SamePrefix at hlt
      have := key_strict keys hs n (n + 1) (by omega) hn
      simp only [Nat.pow_zero, Nat.div_one] at hlt
      omega
  dl_iff := by
    intro i j c hi0 hiM hc hcW
    obtain ⟨n, rfl⟩ := Int.eq_ofNat_of_zero_le hi0
    have hn : n < keys.length := by omega
    by_cases hj : j < 0 ∨ (keys.length : Int) ≤ j
    · rw [delta_out W keys _ j hj]
      constructor
      · intro h; omega
      · intro h
        exfalso
        rcases hj with hj | hj
        · have := h (-1) (by omega) (by omega)
          rw [adjacent_out W keys (-1) (by omega)] at this
          omega
        · have := h ((keys.length : Int) - 1) (by omega) (by omega)
          rw [adjacent_out W keys _ (by omega)] at this
          omega
    · obtain ⟨k, rfl⟩ := Int.eq_ofNat_of_zero_le (by omega : 0 ≤ j)
      have hk : k < keys.length := by omega
      rw [lt_delta_iff W keys hb n k hn hk c hc hcW]
      rcases Nat.le_total n k with hnk | hkn
      · rw [lt_delta_iff_forall W keys hs hb n k hnk hk c hc hcW,
          min_eq_left (by omega : (n : Int) ≤ k), max_eq_right (by omega : (n : Int) ≤ k)]
      · rw [min_eq_right (by omega : (k : Int) ≤ n), max_eq_left (by omega : (k : Int) ≤ n),
          ← lt_delta_iff_forall W keys hs hb k n hkn hn c hc hcW]
        exact ⟨fun h => h.symm, fun h => h.symm⟩
  unique_min := by
    intro s t hs0 hst htM heq
    obtain ⟨n, rfl⟩ := Int.eq_ofNat_of_zero_le hs0
    obtain ⟨k, rfl⟩ := Int.eq_ofNat_of_zero_le (by omega : 0 ≤ t)
    have hnk : n < k := by omega
    have hk : k + 1 < keys.length := by omega
    by_contra hno
    have hno' : ∀ u : Int, (n : Int) < u → u < k → adjacent W keys n ≤ adjacent W keys u := by
      intro u h1 h2
      by_contra hlt
      exact hno ⟨u, h1, h2, by omega⟩
    -- the common value `p` of the two neighbour prefix lengths
    have hp0 : 0 ≤ adjacent W keys n := by
      rw [adjacent_nat]; unfold delta; rw [if_pos (by omega)]; omega
    have hpW : adjacent W keys n < W := by
      by_contra hge
      have hlt : ((W : Int) - 1) < adjacent W keys (n : Int) := by omega
      rw [lt_adjacent_iff W keys hb n (by omega) _ (by omega) (by omega)] at hlt
      have e : W - ((W : Int) - 1 + 1).toNat = 0 := by
        have : ((W : Int) - 1 + 1).toNat = W := by omega
        omega
      rw [e] at hlt
      unfold SamePrefix at hlt
      have := key_strict keys hs n (n + 1) (by omega) (by omega)
      simp only [Nat.pow_zero, Nat.div_one] at hlt
      omega
    obtain ⟨p, hp⟩ := Int.eq_ofNat_of_zero_le hp0
    have hpW' : p < W := by omega
    -- all keys from `n` to `k + 1` agree above the low `W - p` bits
    have hall : SamePrefix keys (W - p) n (k + 1) := by
      have h := (lt_delta_iff_forall W keys hs hb n (k + 1) (by omega) hk
        ((p : Int) - 1) (by omega) (by omega)).mpr
      have e : W - ((p : Int) - 1 + 1).toNat = W - p := by
        have : ((p : Int) - 1 + 1).toNat = p := by omega
        rw [this]
      rw [e] at h
      apply h
      intro u h1 h2
      by_cases hun : u = n
      · rw [hun]; omega
      · by_cases huk : u = k
        · rw [huk, ← heq]; omega
        · have := hno' u (by omega) (by omega)
          omega
    -- the neighbours at `n` and at `k` differ in the next bit
    have hn1 : ¬ SamePrefix keys (W - (p + 1)) n (n + 1) := by
      intro h
      have := (lt_adjacent_iff W keys hb n (by omega) (p : Int) (by omega) (by omega)).mpr
        (by
          have e : ((p : Int) + 1).toNat = p + 1 := by omega
          rw [e]; exact h)
      omega
    have hk1 : ¬ SamePrefix keys (W - (p + 1)) k (k + 1) := by
      intro h
      have := (lt_adjacent_iff W keys hb k hk (p : Int) (by omega) (by omega)).mpr
        (by
          have e : ((p : Int) + 1).toNat = p + 1 := by omega
          rw [e]; exact h)
      omega
    unfold SamePrefix at hall hn1 hk1
    have e : W - p = (W - (p + 1)) + 1 := by omega
    rw [e, Nat.pow_succ, ← Nat.div_div_eq_div_mul, ← Nat.div_div_eq_div_mul] at hall
    have m1 := Nat.div_le_div_right (c := 2 ^ (W - (p + 1)))
      (key_mono keys hs n (n + 1) (by omega) (by omega))
    have m2 := Nat.div_le_div_right (c := 2 ^ (W - (p + 1)))
      (key_mono keys hs (n + 1) k (by omega) (by omega))
    have m3 := Nat.div_le_div_right (c := 2 ^ (W - (p + 1)))
      (key_mono keys hs k (k + 1) (by omega) (by omega))
    omega

/-! ### The three loops of a node task -/

/-- The doubling loop ends on a power of two `2 ^ (k + 1)` that fails the test; the
fuel is enough when the test fails from `M` on and `M ≤ 2 ^ (k0 + 1 + fuel)`. -/
theorem growRange_spec (test : Int → Bool) (M : Int) (hout : ∀ l, M ≤ l → test l = false)
    (fuel k0 : Nat) (hfuel : M ≤ 2 ^ (k0 + 1 + fuel)) :
    ∃ k, k0 ≤ k ∧ growRange test fuel (2 ^ (k0 + 1)) = 2 ^ (k + 1) ∧
      test (2 ^ (k + 1)) = false ∧ (k = k0 ∨ test (2 ^ k) = true) := by
  induction fuel generalizing k0 with
  | zero =>
    exact ⟨k0, le_refl _, rfl, hout _ (by simpa using hfuel), Or.inl rfl⟩
  | succ fuel ih =>
    simp only [growRange]
    by_cases ht : test (2 ^ (k0 + 1)) = true
    · rw [if_pos ht]
      have e : (2 : Int) ^ (k0 + 1) * 2 = 2 ^ (k0 + 1 + 1) := by ring
      rw [e]
      obtain ⟨k, hk, hr, hf, hprev⟩ := ih (k0 + 1) (by
        have : k0 + 1 + 1 + fuel = k0 + 1 + (fuel + 1) := by omega
        rw [this]; exact hfuel)
      refine ⟨k, by omega, hr, hf, ?_⟩
      rcases hprev with h | h
      · right; rw [h]; exact ht
      · right; exact h
    · rw [if_neg ht]
      exact ⟨k0, le_refl _, rfl, by simpa using ht, Or.inl rfl⟩

theorem searchLength_zero (test : Int → Bool) (fuel : Nat) (l : Int) :
    searchLength test fuel 0 l = l := by
  cases fuel <;> simp [searchLength]

/-- The binary search with steps `2 ^ k, ..., 2, 1` keeps `test l` and ends with
`test (l + 1)` false. -/
theorem searchLength_spec (test : Int → Bool) (k fuel : Nat) (l : Int) (hfuel : k + 1 ≤ fuel)
    (hl : test l = true) (hu : test (l + 2 ^ (k + 1)) = false) :
    test (searchLength test fuel (2 ^ k) l) = true ∧
    test (searchLength test fuel (2 ^ k) l + 1) = false ∧
    l ≤ searchLength test fuel (2 ^ k) l := by
  induction k generalizing fuel l with
  | zero =>
    obtain ⟨f, rfl⟩ : ∃ f, fuel = f + 1 := ⟨fuel - 1, by omega⟩
    simp only [searchLength, pow_zero, le_refl, if_true]
    have e : (1 : Int) / 2 = 0 := by norm_num
    rw [e, searchLength_zero]
    by_cases ht : test (l + 1) = true
    · rw [if_pos ht]
      refine ⟨ht, ?_, by omega⟩
      have : l + 1 + 1 = l + 2 ^ (0 + 1) := by norm_num; ring
      rw [this]; exact hu
    · rw [if_neg ht]
      exact ⟨hl, by simpa using ht, le_refl _⟩
  | succ k ih =>
    obtain ⟨f, rfl⟩ : ∃ f, fuel = f + 1 := ⟨fuel - 1, by omega⟩
    simp only [searchLength]
    have hpos : (1 : Int) ≤ 2 ^ (k + 1) := by
      have : (0 : Int) < 2 ^ (k + 1) := by positivity
      omega
    rw [if_pos hpos]
    have e : (2 : Int) ^ (k + 1) / 2 = 2 ^ k := by
      rw [pow_succ]; simp
    rw [e]
    by_cases ht : test (l + 2 ^ (k + 1)) = true
    · rw [if_pos ht]
      have := ih f (l + 2 ^ (k + 1)) (by omega) ht (by
        have : l + 2 ^ (k + 1) + 2 ^ (k + 1) = l + 2 ^ (k + 1 + 1) := by ring
        rw [this]; exact hu)
      refine ⟨this.1, this.2.1, ?_⟩
      have h2 : (0 : Int) ≤ 2 ^ (k + 1) := by positivity
      omega
    · rw [if_neg ht]
      exact ih f l (by omega) hl (by simpa using ht)

theorem searchSplit_spec_aux (test : Int → Bool)
    (hmono : ∀ x y, 0 ≤ x → x ≤ y → test x = false → test y = false)
    (fuel : Nat) (t s : Int) (hs0 : 0 ≤ s) (ht1 : 1 ≤ t) (hfuel : t ≤ fuel)
    (hs : test s = true) (hu : test (s + t) = false) :
    test (searchSplit test fuel t s) = true ∧
    test (searchSplit test fuel t s + 1) = false ∧
    s ≤ searchSplit test fuel t s := by
  induction fuel generalizing t s with
  | zero => simp at hfuel; omega
  | succ fuel ih =>
    simp only [searchSplit]
    have ht' : 1 ≤ (t + 1) / 2 := by omega
    by_cases hm : test (s + (t + 1) / 2) = true
    · rw [if_pos hm]
      have hnext : test (s + (t + 1) / 2 + (t + 1) / 2) = false :=
        hmono (s + t) _ (by omega) (by omega) hu
      by_cases hc : 1 < (t + 1) / 2
      · rw [if_pos hc]
        have := ih ((t + 1) / 2) (s + (t + 1) / 2) (by omega) ht'
          (by push_cast at hfuel ⊢; omega) hm hnext
        exact ⟨this.1, this.2.1, by omega⟩
      · rw [if_neg hc]
        have e : (t + 1) / 2 = 1 := by omega
        rw [e] at hnext hm ⊢
        exact ⟨hm, hnext, by omega⟩
    · rw [if_neg hm]
      have hm' : test (s + (t + 1) / 2) = false := by simpa using hm
      by_cases hc : 1 < (t + 1) / 2
      · rw [if_pos hc]
        have := ih ((t + 1) / 2) s hs0 ht' (by push_cast at hfuel ⊢; omega) hs hm'
        exact ⟨this.1, this.2.1, by omega⟩
      · rw [if_neg hc]
        have e : (t + 1) / 2 = 1 := by omega
        rw [e] at hm'
        exact ⟨hs, hm', by omega⟩

/-- The binary search with steps `⌈t/2⌉, ⌈t/4⌉, ..., 1` for a test that is downward
closed on the non-negative numbers: it keeps `test s` and ends with `test (s + 1)`
false, between the bounds it started from. -/
theorem searchSplit_spec (test : Int → Bool)
    (hmono : ∀ x y, 0 ≤ x → x ≤ y → test x = false → test y = false)
    (fuel : Nat) (t s : Int) (hs0 : 0 ≤ s) (ht1 : 1 ≤ t) (hfuel : t ≤ fuel)
    (hs : test s = true) (hu : test (s + t) = false) :
    test (searchSplit test fuel t s) = true ∧
    test (searchSplit test fuel t s + 1) = false ∧
    s ≤ searchSplit test fuel t s ∧ searchSplit test fuel t s < s + t := by
  obtain ⟨h1, h2, h3⟩ := searchSplit_spec_aux test hmono fuel t s hs0 ht1 hfuel hs hu
  refine ⟨h1, h2, h3, ?_⟩
  by_contra hge
  have := hmono (s + t) (searchSplit test fuel t s) (by omega) (by omega) hu
  rw [h1] at this
  cases this

/-! ### The task of one node -/

section NodeTask

variable {M W : Int} {dl : Int → Int → Int} {a : Int → Int}

theorem eq_of_lt_iff (W x y : Int) (hx : -1 ≤ x) (hxW : x ≤ W) (hy : -1 ≤ y) (hyW : y ≤ W)
    (h : ∀ c, -1 ≤ c → c < W → (c < x ↔ c < y)) : x = y := by
  rcases lt_trichotomy x y with hlt | heq | hgt
  · have := (h x hx (by omega)).mpr hlt
    omega
  · exact heq
  · have := (h y hy (by omega)).mp hgt
    omega

theorem RadixCtx.dl_succ (ctx : RadixCtx M W dl a) (i : Int) (hi0 : 0 ≤ i) (hiM : i < M) :
    dl i (i + 1) = a i := by
  apply eq_of_lt_iff W _ _ (ctx.dl_ge _ _) (ctx.dl_le _ _) (ctx.a_ge _) (le_of_lt (ctx.a_lt _))
  intro c hc hcW
  rw [ctx.dl_iff i (i + 1) c hi0 hiM hc hcW]
  constructor
  · intro h
    exact h i (by omega) (by omega)
  · intro h t h1 h2
    have : t = i := by omega
    rw [this]; exact h

theorem RadixCtx.dl_pred (ctx : RadixCtx M W dl a) (i : Int) (hi0 : 0 ≤ i) (hiM : i < M) :
    dl i (i - 1) = a (i - 1) := by
  apply eq_of_lt_iff W _ _ (ctx.dl_ge _ _) (ctx.dl_le _ _) (ctx.a_ge _) (le_of_lt (ctx.a_lt _))
  intro c hc hcW
  rw [ctx.dl_iff i (i - 1) c hi0 hiM hc hcW]
  constructor
  · intro h
    exact h (i - 1) (by omega) (by omega)
  · intro h t h1 h2
    have : t = i - 1 := by omega
    rw [this]; exact h

/-- Neighbouring prefix lengths differ. -/
theorem RadixCtx.adj_ne (ctx : RadixCtx M W dl a) (i : Int) (hi0 : 0 ≤ i) (hiM : i < M - 1) :
    a (i - 1) ≠ a i := by
  intro heq
  by_cases h0 : i = 0
  · have h1 := ctx.a_out (i - 1) (by omega)
    have h2 := ctx.a_in i hi0 hiM
    omega
  · obtain ⟨u, hu1, hu2, -⟩ := ctx.unique_min (i - 1) i (by omega) (by omega) hiM heq
    omega

/-- The prefix length between `i` and the key `l` steps away in the direction `d`, by
the neighbour prefix lengths on the way. -/
theorem RadixCtx.lt_dl_iff (ctx : RadixCtx M W dl a) (i d : Int) (hd : d = 1 ∨ d = -1)
    (hi0 : 0 ≤ i) (hiM : i < M) (l : Int) (hl : 0 ≤ l) (c : Int) (hc : -1 ≤ c)
    (hcW : c < W) :
    c < dl i (i + l * d) ↔ ∀ m, 0 ≤ m → m < l → c < a (i + m * d + min d 0) := by
  rw [ctx.dl_iff i (i + l * d) c hi0 hiM hc hcW]
  rcases hd with rfl | rfl
  · constructor
    · intro h m h1 h2
      have := h (i + m) (by omega) (by omega)
      have e : i + m * 1 + min (1 : Int) 0 = i + m := by omega
      rw [e]; exact this
    · intro h t h1 h2
      have := h (t - i) (by omega) (by omega)
      have e : i + (t - i) * 1 + min (1 : Int) 0 = t := by omega
      rw [e] at this; exact this
  · constructor
    · intro h m h1 h2
      have := h (i - m - 1) (by omega) (by omega)
      have e : i + m * (-1) + min (-1 : Int) 0 = i - m - 1 := by omega
      rw [e]; exact this
    · intro h t h1 h2
      have := h (i - 1 - t) (by omega) (by omega)
      have e : i + (i - 1 - t) * (-1) + min (-1 : Int) 0 = t := by omega
      rw [e] at this; exact this

/-- From what the two searches of a node task establish (the length `l` of the range
in the direction `d`, the offset `s` of the split) to the description of the node. -/
theorem RadixCtx.nodeChar_of_search (ctx : RadixCtx M W dl a) (i d l s : Int)
    (hd : d = 1 ∨ d = -1) (hi0 : 0 ≤ i) (hl : 1 ≤ l)
    (hlen : ∀ m, 0 ≤ m → m < l → a (i + (-1) * d + min d 0) < a (i + m * d + min d 0))
    (hend : a (i + l * d + min d 0) ≤ a (i + (-1) * d + min d 0))
    (hs0 : 0 ≤ s) (hsl : s < l)
    (hmin : ∀ m, 0 ≤ m → m < l → a (i + s * d + min d 0) ≤ a (i + m * d + min d 0))
    (hbefore : ∀ m, 0 ≤ m → m < s → a (i + s * d + min d 0) < a (i + m * d + min d 0)) :
    NodeChar a M i (min i (i + l * d)) (max i (i + l * d)) (i + s * d + min d 0) := by
  -- every place of the range is inside the array
  have hin : ∀ m, 0 ≤ m → m < l →
      0 ≤ i + m * d + min d 0 ∧ i + m * d + min d 0 < M - 1 := by
    intro m h1 h2
    have h3 := hlen m h1 h2
    have h4 := ctx.a_ge (i + (-1) * d + min d 0)
    by_contra hout
    have := ctx.a_out (i + m * d + min d 0) (by omega)
    omega
  -- the split is the only place with the least prefix length
  have hstrict : ∀ m, 0 ≤ m → m < l → m ≠ s →
      a (i + s * d + min d 0) < a (i + m * d + min d 0) := by
    intro m h1 h2 hne
    rcases lt_or_gt_of_ne hne with hlt | hgt
    · exact hbefore m h1 hlt
    · rcases lt_or_eq_of_le (hmin m h1 h2) with h | heq
      · exact h
      · exfalso
        have hs_in := hin s hs0 hsl
        have hm_in := hin m h1 h2
        rcases hd with rfl | rfl
        · obtain ⟨u, hu1, hu2, hu3⟩ := ctx.unique_min (i + s * 1 + min (1 : Int) 0)
            (i + m * 1 + min (1 : Int) 0) hs_in.1 (by omega) hm_in.2 heq
          have := hmin (u - i) (by omega) (by omega)
          have e : i + (u - i) * 1 + min (1 : Int) 0 = u := by omega
          rw [e] at this
          omega
        · obtain ⟨u, hu1, hu2, hu3⟩ := ctx.unique_min (i + m * (-1) + min (-1 : Int) 0)
            (i + s * (-1) + min (-1 : Int) 0) hm_in.1 (by omega) hs_in.2 heq.symm
          have := hmin (i - 1 - u) (by omega) (by omega)
          have e : i + (i - 1 - u) * (-1) + min (-1 : Int) 0 = u := by omega
          rw [e] at this
          omega
  have hlast := hin (l - 1) (by omega) (by omega)
  have hfirst := hin 0 (le_refl _) (by omega)
  have hsplit := hlen s hs0 hsl
  rcases hd with rfl | rfl
  · have e1 : min i (i + l * 1) = i := by omega
    have e2 : max i (i + l * 1) = i + l := by omega
    have e3 : i + (-1) * 1 + min (1 : Int) 0 = i - 1 := by omega
    have e4 : i + l * 1 + min (1 : Int) 0 = i + l := by omega
    rw [e1, e2]
    rw [e3] at hsplit
    rw [e3, e4] at hend
    refine ⟨hi0, by omega, by omega, by omega, ?_, hsplit, by omega, Or.inl ⟨rfl, hend⟩⟩
    intro t h1 h2 hne
    have := hstrict (t - i) (by omega) (by omega) (by omega)
    have e : i + (t - i) * 1 + min (1 : Int) 0 = t := by omega
    rw [e] at this
    exact this
  · have e1 : min i (i + l * (-1)) = i - l := by omega
    have e2 : max i (i + l * (-1)) = i := by omega
    have e3 : i + (-1) * (-1) + min (-1 : Int) 0 = i := by omega
    have e4 : i + l * (-1) + min (-1 : Int) 0 = i - l - 1 := by omega
    rw [e1, e2]
    rw [e3] at hsplit
    rw [e3, e4] at hend
    refine ⟨by omega, by omega, by omega, by omega, ?_, by omega, hsplit,
      Or.inr ⟨rfl, hend⟩⟩
    intro t h1 h2 hne
    have := hstrict (i - 1 - t) (by omega) (by omega) (by omega)
    have e : i + (i - 1 - t) * (-1) + min (-1 : Int) 0 = t := by omega
    rw [e] at this
    exact this

end NodeTask

theorem processNode_lo (W : Nat) (keys : List Nat) (i : Int) :
    (processNode W keys i).lo = min i (i + nodeLen W keys i * nodeDir W keys i) := rfl

theorem processNode_hi (W : Nat) (keys : List Nat) (i : Int) :
    (processNode W keys i).hi = max i (i + nodeLen W keys i * nodeDir W keys i) := rfl

theorem processNode_split (W : Nat) (keys : List Nat) (i : Int) :
    (processNode W keys i).split
      = i + nodeOffset W keys i * nodeDir W keys i + min (nodeDir W keys i) 0 := rfl

theorem processNode_left (W : Nat) (keys : List Nat) (i : Int) :
    (processNode W keys i).left =
      if (processNode W keys i).lo = (processNode W keys i).split
      then .leaf (processNode W keys i).split
      else .internal (processNode W keys i).split := rfl

theorem processNode_right (W : Nat) (keys : List Nat) (i : Int) :
    (processNode W keys i).right =
      if (processNode W keys i).hi = (processNode W keys i).split + 1
      then .leaf ((processNode W keys i).split + 1)
      else .internal ((processNode W keys i).split + 1) := rfl

/-- The direction of node `i` points to the neighbour with the longer common prefix. -/
theorem nodeDir_spec (W : Nat) (keys : List Nat) (a : Int → Int)
    (ctx : RadixCtx keys.length W (delta W keys) a) (i : Int) (hi0 : 0 ≤ i)
    (hiM : i < keys.length - 1) :
    (nodeDir W keys i = 1 ∨ nodeDir W keys i = -1) ∧
    delta W keys i (i - nodeDir W keys i)
      = a (i + (-1) * nodeDir W keys i + min (nodeDir W keys i) 0) ∧
    a (i + (-1) * nodeDir W keys i + min (nodeDir W keys i) 0)
      < a (i + 0 * nodeDir W keys i + min (nodeDir W keys i) 0) := by
  have hsucc := ctx.dl_succ i hi0 (by omega)
  have hpred := ctx.dl_pred i hi0 (by omega)
  have hne := ctx.adj_ne i hi0 hiM
  unfold nodeDir
  rw [hsucc, hpred]
  rcases lt_or_gt_of_ne hne with hlt | hgt
  · have hs : Int.sign (a i - a (i - 1)) = 1 := Int.sign_eq_one_of_pos (by omega)
    rw [hs]
    refine ⟨Or.inl rfl, ?_, ?_⟩
    · have e : i + (-1) * 1 + min (1 : Int) 0 = i - 1 := by omega
      rw [e]; exact hpred
    · have e1 : i + (-1) * 1 + min (1 : Int) 0 = i - 1 := by omega
      have e2 : i + 0 * 1 + min (1 : Int) 0 = i := by omega
      rw [e1, e2]; exact hlt
  · have hs : Int.sign (a i - a (i - 1)) = -1 := Int.sign_eq_neg_one_of_neg (by omega)
    rw [hs]
    refine ⟨Or.inr rfl, ?_, ?_⟩
    · have e : i + (-1) * (-1) + min (-1 : Int) 0 = i := by omega
      have e' : i - (-1) = i + 1 := by omega
      rw [e, e']; exact hsucc
    · have e1 : i + (-1) * (-1) + min (-1 : Int) 0 = i := by omega
      have e2 : i + 0 * (-1) + min (-1 : Int) 0 = i - 1 := by omega
      rw [e1, e2]; exact hgt

/-- The first search of node `i`: the loops end within their fuel, the range runs over
the `l ≥ 1` places with a prefix length above the one of the other neighbour, and stops
at a place that has not. -/
theorem nodeLen_spec (W : Nat) (keys : List Nat) (a : Int → Int)
    (ctx : RadixCtx keys.length W (delta W keys) a) (i : Int) (hi0 : 0 ≤ i)
    (hiM : i < keys.length - 1) :
    1 ≤ nodeLen W keys i ∧ nodeLen W keys i ≤ keys.length - 1 ∧
    (∀ m, 0 ≤ m → m < nodeLen W keys i →
      a (i + (-1) * nodeDir W keys i + min (nodeDir W keys i) 0)
        < a (i + m * nodeDir W keys i + min (nodeDir W keys i) 0)) ∧
    a (i + nodeLen W keys i * nodeDir W keys i + min (nodeDir W keys i) 0)
      ≤ a (i + (-1) * nodeDir W keys i + min (nodeDir W keys i) 0) := by
  obtain ⟨hd, hmin, hdir⟩ := nodeDir_spec W keys a ctx i hi0 hiM
  unfold nodeLen
  dsimp only
  rw [hmin]
  generalize nodeDir W keys i = d at *
  generalize hδ : a (i + (-1) * d + min d 0) = δ at *
  have hδ1 : -1 ≤ δ := by rw [← hδ]; exact ctx.a_ge _
  have hδW : δ < W := by rw [← hδ]; exact ctx.a_lt _
  generalize htest : (fun l : Int => decide (δ < delta W keys i (i + l * d))) = test
  have htest_iff : ∀ l, 0 ≤ l →
      (test l = true ↔ ∀ m, 0 ≤ m → m < l → δ < a (i + m * d + min d 0)) := by
    intro l hl
    rw [← htest]
    simp only [decide_eq_true_eq]
    exact ctx.lt_dl_iff i d hd hi0 (by omega) l hl δ hδ1 hδW
  have hout : ∀ l, (keys.length : Int) ≤ l → test l = false := by
    intro l hl
    by_contra h
    have h' : test l = true := by simpa using h
    rw [htest_iff l (by omega)] at h'
    rcases hd with rfl | rfl
    · have := h' (keys.length - 1 - i) (by omega) (by omega)
      rw [ctx.a_out _ (by omega)] at this
      omega
    · have := h' i (by omega) (by omega)
      rw [ctx.a_out _ (by omega)] at this
      omega
  have hpow : (keys.length : Int) ≤ 2 ^ (0 + 1 + keys.length) := by
    have h1 : keys.length < 2 ^ (0 + 1 + keys.length) :=
      lt_of_lt_of_le (Nat.lt_two_pow _) (Nat.pow_le_pow_right (by norm_num) (by omega))
    exact_mod_cast le_of_lt h1
  obtain ⟨k, -, hgrow, hfalse, hprev⟩ :=
    growRange_spec test keys.length hout keys.length 0 hpow
  have e : (2 : Int) ^ (0 + 1) = 2 := by norm_num
  rw [e] at hgrow
  rw [hgrow]
  have e2 : (2 : Int) ^ (k + 1) / 2 = 2 ^ k := by
    rw [pow_succ]; simp
  rw [e2]
  have hk : k + 1 ≤ keys.length := by
    rcases hprev with h | h
    · omega
    · have h1 : ¬ ((keys.length : Int) ≤ 2 ^ k) := by
        intro hle
        rw [hout _ hle] at h
        cases h
      have h2 : (2 : Int) ^ k < keys.length := by omega
      have h3 : 2 ^ k < keys.length := by exact_mod_cast h2
      have h4 := Nat.lt_two_pow k
      omega
  have h0 : test 0 = true := by
    rw [htest_iff 0 (le_refl _)]
    intro m h1 h2
    omega
  obtain ⟨hl1, hl2, hl3⟩ := searchLength_spec test k keys.length 0 hk h0
    (by rw [zero_add]; exact hfalse)
  generalize searchLength test keys.length (2 ^ k) 0 = l at *
  have hlen := (htest_iff l hl3).mp hl1
  have hl_pos : 1 ≤ l := by
    by_contra hlt
    have hl0 : l = 0 := by omega
    rw [hl0] at hl2
    have : test (0 + 1) = true := by
      rw [htest_iff (0 + 1) (by omega)]
      intro m h1 h2
      have : m = 0 := by omega
      rw [this]
      exact hdir
    rw [hl2] at this
    cases this
  refine ⟨hl_pos, ?_, hlen, ?_⟩
  · have h1 := hlen (l - 1) (by omega) (by omega)
    have hin : 0 ≤ i + (l - 1) * d + min d 0 ∧ i + (l - 1) * d + min d 0 < keys.length - 1 := by
      by_contra hno
      have := ctx.a_out (i + (l - 1) * d + min d 0) (by omega)
      omega
    rcases hd with rfl | rfl
    · omega
    · omega
  · by_contra hgt
    have : test (l + 1) = true := by
      rw [htest_iff (l + 1) (by omega)]
      intro m h1 h2
      by_cases hm : m = l
      · rw [hm]; omega
      · exact hlen m h1 (by omega)
    rw [hl2] at this
    cases this

/-- The second search of node `i`: it ends within its fuel at the offset `s < l` of
the place with the least prefix length of the range, the first such place. -/
theorem nodeOffset_spec (W : Nat) (keys : List Nat) (a : Int → Int)
    (ctx : RadixCtx keys.length W (delta W keys) a) (i : Int) (hi0 : 0 ≤ i)
    (hiM : i < keys.length - 1) :
    0 ≤ nodeOffset W keys i ∧ nodeOffset W keys i < nodeLen W keys i ∧
    (∀ m, 0 ≤ m → m < nodeLen W keys i →
      a (i + nodeOffset W keys i * nodeDir W keys i + min (nodeDir W keys i) 0)
        ≤ a (i + m * nodeDir W keys i + min (nodeDir W keys i) 0)) ∧
    (∀ m, 0 ≤ m → m < nodeOffset W keys i →
      a (i + nodeOffset W keys i * nodeDir W keys i + min (nodeDir W keys i) 0)
        < a (i + m * nodeDir W keys i + min (nodeDir W keys i) 0)) := by
  obtain ⟨hd, -, -⟩ := nodeDir_spec W keys a ctx i hi0 hiM
  obtain ⟨hl1, hlM, hlen, -⟩ := nodeLen_spec W keys a ctx i hi0 hiM
  unfold nodeOffset
  dsimp only
  generalize nodeDir W keys i = d at *
  generalize nodeLen W keys i = l at *
  generalize hδ : delta W keys i (i + l * d) = δ
  have hδ1 : -1 ≤ δ := by rw [← hδ]; exact ctx.dl_ge _ _
  have hfirst := hlen 0 (le_refl _) (by omega)
  have hδW : δ < W := by
    by_contra hge
    have h1 : (W : Int) - 1 < delta W keys i (i + l * d) := by rw [hδ]; omega
    rw [ctx.lt_dl_iff i d hd hi0 (by omega) l (by omega) _ (by omega) (by omega)] at h1
    have h2 := h1 0 (le_refl _) (by omega)
    have h3 := ctx.a_lt (i + 0 * d + min d 0)
    omega
  have hδ0 : 0 ≤ δ := by
    have h1 : a (i + (-1) * d + min d 0) < delta W keys i (i + l * d) := by
      rw [ctx.lt_dl_iff i d hd hi0 (by omega) l (by omega) _ (ctx.a_ge _) (ctx.a_lt _)]
      exact hlen
    have h2 := ctx.a_ge (i + (-1) * d + min d 0)
    rw [hδ] at h1
    omega
  have hall : ∀ m, 0 ≤ m → m < l → δ ≤ a (i + m * d + min d 0) := by
    intro m h1 h2
    have h3 : δ - 1 < delta W keys i (i + l * d) := by rw [hδ]; omega
    rw [ctx.lt_dl_iff i d hd hi0 (by omega) l (by omega) _ (by omega) (by omega)] at h3
    have := h3 m h1 h2
    omega
  generalize htest : (fun s : Int => decide (δ < delta W keys i (i + s * d))) = test
  have htest_iff : ∀ s, 0 ≤ s →
      (test s = true ↔ ∀ m, 0 ≤ m → m < s → δ < a (i + m * d + min d 0)) := by
    intro s hs
    rw [← htest]
    simp only [decide_eq_true_eq]
    exact ctx.lt_dl_iff i d hd hi0 (by omega) s hs δ hδ1 hδW
  have hmono : ∀ x y, 0 ≤ x → x ≤ y → test x = false → test y = false := by
    intro x y hx hxy hfx
    by_contra hy
    have hy' : test y = true := by simpa using hy
    rw [htest_iff y (by omega)] at hy'
    have : test x = true := by
      rw [htest_iff x hx]
      intro m h1 h2
      exact hy' m h1 (by omega)
    rw [hfx] at this
    cases this
  have h0 : test 0 = true := by
    rw [htest_iff 0 (le_refl _)]
    intro m h1 h2
    omega
  have hl : test (0 + l) = false := by
    rw [zero_add, ← htest]
    simp only [hδ, lt_self_iff_false, decide_False]
  obtain ⟨hs1, hs2, hs3, hs4⟩ :=
    searchSplit_spec test hmono keys.length l 0 (le_refl _) hl1 (by omega) h0 hl
  generalize searchSplit test keys.length l 0 = s at *
  have hbefore := (htest_iff s hs3).mp hs1
  have hle : a (i + s * d + min d 0) ≤ δ := by
    by_contra hgt
    have : test (s + 1) = true := by
      rw [htest_iff (s + 1) (by omega)]
      intro m h1 h2
      by_cases hm : m = s
      · rw [hm]; omega
      · exact hbefore m h1 (by omega)
    rw [hs2] at this
    cases this
  have heq : a (i + s * d + min d 0) = δ := le_antisymm hle (hall s hs3 (by omega))
  rw [heq]
  exact ⟨hs3, by omega, hall, hbefore⟩

/-- The node computed for the index `i` of `[0, M-2]` is described by `NodeChar`. -/
theorem processNode_char (W : Nat) (keys : List Nat) (a : Int → Int)
    (ctx : RadixCtx keys.length W (delta W keys) a) (i : Int) (hi0 : 0 ≤ i)
    (hiM : i < keys.length - 1) :
    NodeChar a keys.length i (processNode W keys i).lo (processNode W keys i).hi
      (processNode W keys i).split := by
  obtain ⟨hd, -, -⟩ := nodeDir_spec W keys a ctx i hi0 hiM
  obtain ⟨hl1, -, hlen, hend⟩ := nodeLen_spec W keys a ctx i hi0 hiM
  obtain ⟨hs0, hsl, hmin, hbefore⟩ := nodeOffset_spec W keys a ctx i hi0 hiM
  rw [processNode_lo, processNode_hi, processNode_split]
  exact ctx.nodeChar_of_search i _ _ _ hd hi0 hl1 hlen hend hs0 hsl hmin hbefore

/-! ### The tree -/

section Tree

variable {M W : Int} {dl : Int → Int → Int} {a : Int → Int}

theorem NodeChar.le_of_mem {i lo hi gamma : Int} (h : NodeChar a M i lo hi gamma) (t : Int)
    (h1 : lo ≤ t) (h2 : t < hi) : a gamma ≤ a t := by
  obtain ⟨-, -, -, -, hmin, -⟩ := h
  by_cases ht : t = gamma
  · rw [ht]
  · exact le_of_lt (hmin t h1 h2 ht)

/-- A node index has one description only. -/
theorem NodeChar.unique {i lo hi gamma lo' hi' gamma' : Int}
    (h : NodeChar a M i lo hi gamma) (h' : NodeChar a M i lo' hi' gamma') :
    lo = lo' ∧ hi = hi' ∧ gamma = gamma' := by
  have hle := h.le_of_mem
  have hle' := h'.le_of_mem
  obtain ⟨h0, h1, h2, h3, hmin, hlo, hhi, hidx⟩ := h
  obtain ⟨h0', h1', h2', h3', hmin', hlo', hhi', hidx'⟩ := h'
  have hrange : lo = lo' ∧ hi = hi' := by
    rcases hidx with ⟨rfl, hc⟩ | ⟨rfl, hc⟩ <;> rcases hidx' with ⟨e, hc'⟩ | ⟨e, hc'⟩
    · subst e
      refine ⟨rfl, ?_⟩
      rcases lt_trichotomy hi hi' with hlt | heq | hgt
      · have := hle' hi (by omega) hlt
        omega
      · exact heq
      · have := hle hi' (by omega) hgt
        omega
    · exfalso
      have e1 := hle i (by omega) (by omega)
      have e2 := hle' (i - 1) (by omega) (by omega)
      rw [← e] at hhi'
      omega
    · exfalso
      have e1 := hle' i (by omega) (by omega)
      have e2 := hle (i - 1) (by omega) (by omega)
      rw [← e] at hlo'
      omega
    · subst e
      refine ⟨?_, rfl⟩
      rcases lt_trichotomy lo lo' with hlt | heq | hgt
      · have := hle (lo' - 1) (by omega) (by omega)
        omega
      · exact heq
      · have := hle' (lo - 1) (by omega) (by omega)
        omega
  obtain ⟨rfl, rfl⟩ := hrange
  refine ⟨rfl, rfl, ?_⟩
  by_contra hne
  have e1 := hmin gamma' h1' h2' (fun e => hne e.symm)
  have e2 := hmin' gamma h1 h2 hne
  omega

/-- The parent of a leaf `g` whose right neighbour is the closer one: a node with the
range `[g, hi]` that splits right after `g`. -/
theorem RadixCtx.exists_left_parent (ctx : RadixCtx M W dl a) (g : Int) (hg0 : 0 ≤ g)
    (hgM : g < M - 1) (hdir : a (g - 1) < a g) :
    ∃ i hi, 0 ≤ i ∧ i < M - 1 ∧ NodeChar a M i g hi g := by
  have hag := ctx.a_in g hg0 hgM
  have hex : ∃ n : Nat, a (g + 1 + n) < a g := by
    refine ⟨(M - 1 - (g + 1)).toNat, ?_⟩
    rw [ctx.a_out _ (by omega)]
    omega
  have hspec := Nat.find_spec hex
  have hleast := fun n => Nat.find_min (m := n) hex
  generalize Nat.find hex = n at hspec hleast
  have hnM : g + 1 + n ≤ M - 1 := by
    by_contra hgt
    have hlt : (M - 1 - (g + 1)).toNat < n := by omega
    apply hleast _ hlt
    rw [ctx.a_out _ (by omega)]
    omega
  have hge : ∀ t, g < t → t < g + 1 + n → a g ≤ a t := by
    intro t h1 h2
    have := hleast (t - g - 1).toNat (by omega)
    have e : g + 1 + ((t - g - 1).toNat : Int) = t := by omega
    rw [e] at this
    omega
  have hbetween : ∀ t, g < t → t < g + 1 + n → a g < a t := by
    intro t h1 h2
    rcases lt_or_eq_of_le (hge t h1 h2) with h | heq
    · exact h
    · exfalso
      obtain ⟨u, hu1, hu2, hu3⟩ := ctx.unique_min g t hg0 h1 (by omega) heq
      have := hge u hu1 (by omega)
      omega
  have hnode : ∀ i, (i = g ∧ a (g + 1 + n) ≤ a (g - 1)) ∨
      (i = g + 1 + n ∧ a (g - 1) ≤ a (g + 1 + n)) → NodeChar a M i g (g + 1 + n) g := by
    intro i hi
    refine ⟨hg0, le_refl _, by omega, hnM, ?_, hdir, hspec, hi⟩
    intro t h1 h2 hne
    exact hbetween t (by omega) h2
  by_cases hcmp : a (g + 1 + n) ≤ a (g - 1)
  · exact ⟨g, g + 1 + n, hg0, hgM, hnode g (Or.inl ⟨rfl, hcmp⟩)⟩
  · refine ⟨g + 1 + n, g + 1 + n, by omega, ?_, hnode _ (Or.inr ⟨rfl, by omega⟩)⟩
    by_contra hout
    have h1 := ctx.a_out (g + 1 + n) (by omega)
    have h2 := ctx.a_ge (g - 1)
    omega

/-- The parent of a leaf `g` whose left neighbour is the closer one: a node with the
range `[lo, g]` that splits right before `g`. -/
theorem RadixCtx.exists_right_parent (ctx : RadixCtx M W dl a) (g : Int) (hg0 : 1 ≤ g)
    (hgM : g ≤ M - 1) (hdir : a g < a (g - 1)) :
    ∃ i lo, 0 ≤ i ∧ i < M - 1 ∧ NodeChar a M i lo g (g - 1) := by
  have hag := ctx.a_in (g - 1) (by omega) (by omega)
  have hex : ∃ n : Nat, a (g - 2 - n) < a (g - 1) := by
    refine ⟨(g - 1).toNat, ?_⟩
    rw [ctx.a_out _ (by omega)]
    omega
  have hspec := Nat.find_spec hex
  have hleast := fun n => Nat.find_min (m := n) hex
  generalize Nat.find hex = n at hspec hleast
  have hn0 : -1 ≤ g - 2 - n := by
    by_contra hgt
    have hlt : (g - 1).toNat < n := by omega
    apply hleast _ hlt
    rw [ctx.a_out _ (by omega)]
    omega
  have hge : ∀ t, g - 2 - n < t → t < g - 1 → a (g - 1) ≤ a t := by
    intro t h1 h2
    have := hleast (g - 2 - t).toNat (by omega)
    have e : g - 2 - ((g - 2 - t).toNat : Int) = t := by omega
    rw [e] at this
    omega
  have hbetween : ∀ t, g - 2 - n < t → t < g - 1 → a (g - 1) < a t := by
    intro t h1 h2
    rcases lt_or_eq_of_le (hge t h1 h2) with h | heq
    · exact h
    · exfalso
      obtain ⟨u, hu1, hu2, hu3⟩ := ctx.unique_min t (g - 1) (by omega) h2 (by omega) heq.symm
      have := hge u (by omega) hu2
      omega
  have e1 : g - 1 - n - 1 = g - 2 - n := by omega
  have hnode : ∀ i, (i = g - 1 - n ∧ a g ≤ a (g - 2 - n)) ∨
      (i = g ∧ a (g - 2 - n) ≤ a g) → NodeChar a M i (g - 1 - n) g (g - 1) := by
    intro i hi
    refine ⟨by omega, by omega, by omega, hgM, ?_, by rw [e1]; exact hspec, hdir,
      by rw [e1]; exact hi⟩
    intro t h1 h2 hne
    exact hbetween t (by omega) (by omega)
  by_cases hcmp : a g ≤ a (g - 2 - n)
  · exact ⟨g - 1 - n, g - 1 - n, by omega, by omega, hnode _ (Or.inl ⟨rfl, hcmp⟩)⟩
  · refine ⟨g, g - 1 - n, by omega, ?_, hnode _ (Or.inr ⟨rfl, by omega⟩)⟩
    by_contra hout
    have h1 := ctx.a_out g (by omega)
    have h2 := ctx.a_ge (g - 2 - n)
    omega

/-- Two node indices inside `[0, M-2]` with the same range are the same index. -/
theorem RadixCtx.index_unique (ctx : RadixCtx M W dl a) {i i' lo hi gamma gamma' : Int}
    (h : NodeChar a M i lo hi gamma) (h' : NodeChar a M i' lo hi gamma')
    (hiM : i < M - 1) (hiM' : i' < M - 1) : i = i' := by
  have hle := h.le_of_mem
  obtain ⟨h0, h1, h2, h3, hmin, hlo, hhi, hidx⟩ := h
  obtain ⟨-, -, -, -, -, -, -, hidx'⟩ := h'
  have key : a hi = a (lo - 1) → hi < M - 1 → False := by
    intro heq hhiM
    have hpos := ctx.a_in hi (by omega) hhiM
    have hlo0 : 0 ≤ lo - 1 := by
      by_contra hneg
      have := ctx.a_out (lo - 1) (by omega)
      omega
    obtain ⟨u, hu1, hu2, hu3⟩ := ctx.unique_min (lo - 1) hi hlo0 (by omega) hhiM heq.symm
    have := hle u (by omega) hu2
    omega
  rcases hidx with ⟨e, hc⟩ | ⟨e, hc⟩ <;> rcases hidx' with ⟨e', hc'⟩ | ⟨e', hc'⟩
  · rw [e, e']
  · exfalso
    exact key (le_antisymm hc hc') (by omega)
  · exfalso
    exact key (le_antisymm hc' hc) (by omega)
  · rw [e, e']

/-- A leaf has at most one parent: two nodes of `[0, M-2]` that have the leaf `g` as a
child (as the left child, `lo = gamma = g`, or as the right child,
`hi = gamma + 1 = g`) are the same node. -/
theorem RadixCtx.parent_unique (ctx : RadixCtx M W dl a)
    {i i' lo hi gamma lo' hi' gamma' : Int} (g : Int)
    (h : NodeChar a M i lo hi gamma) (h' : NodeChar a M i' lo' hi' gamma')
    (hiM : i < M - 1) (hiM' : i' < M - 1)
    (hg : (lo = gamma ∧ gamma = g) ∨ (hi = gamma + 1 ∧ gamma + 1 = g))
    (hg' : (lo' = gamma' ∧ gamma' = g) ∨ (hi' = gamma' + 1 ∧ gamma' + 1 = g)) :
    i = i' := by
  have hle := h.le_of_mem
  have hle' := h'.le_of_mem
  have hh := h
  have hh' := h'
  obtain ⟨h0, h1, h2, h3, hmin, hlo, hhi, hidx⟩ := h
  obtain ⟨h0', h1', h2', h3', hmin', hlo', hhi', hidx'⟩ := h'
  rcases hg with ⟨e1, e2⟩ | ⟨e1, e2⟩ <;> rcases hg' with ⟨e1', e2'⟩ | ⟨e1', e2'⟩
  · -- both as the left child
    have hlo_eq : lo = lo' := by omega
    have hgam : gamma = gamma' := by omega
    have hhi_eq : hi = hi' := by
      rcases lt_trichotomy hi hi' with hlt | heq | hgt
      · have := hmin' hi (by omega) hlt (by omega)
        rw [← hgam] at this
        omega
      · exact heq
      · have := hmin hi' (by omega) hgt (by omega)
        rw [hgam] at this
        omega
    subst hlo_eq hhi_eq
    exact ctx.index_unique hh hh' hiM hiM'
  · exfalso
    have a1 : a (g - 1) < a g := by
      have : lo - 1 = g - 1 := by omega
      rw [this, e2] at hlo
      exact hlo
    have a2 : a g < a (g - 1) := by
      have e3 : gamma' = g - 1 := by omega
      have e4 : hi' = g := by omega
      rw [e3, e4] at hhi'
      exact hhi'
    omega
  · exfalso
    have a1 : a (g - 1) < a g := by
      have : lo' - 1 = g - 1 := by omega
      rw [this, e2'] at hlo'
      exact hlo'
    have a2 : a g < a (g - 1) := by
      have e3 : gamma = g - 1 := by omega
      have e4 : hi = g := by omega
      rw [e3, e4] at hhi
      exact hhi
    omega
  · -- both as the right child
    have hhi_eq : hi = hi' := by omega
    have hgam : gamma = gamma' := by omega
    have hlo_eq : lo = lo' := by
      rcases lt_trichotomy lo lo' with hlt | heq | hgt
      · have := hmin (lo' - 1) (by omega) (by omega) (by omega)
        rw [hgam] at this
        omega
      · exact heq
      · have := hmin' (lo - 1) (by omega) (by omega) (by omega)
        rw [← hgam] at this
        omega
    subst hlo_eq hhi_eq
    exact ctx.index_unique hh hh' hiM hiM'

/-- The root: the node `0` covers all keys. -/
theorem RadixCtx.root_range (ctx : RadixCtx M W dl a) {lo hi gamma : Int}
    (h : NodeChar a M 0 lo hi gamma) : lo = 0 ∧ hi = M - 1 := by
  obtain ⟨h0, h1, h2, h3, hmin, hlo, hhi, hidx⟩ := h
  rcases hidx with ⟨e, hc⟩ | ⟨e, hc⟩
  · refine ⟨e.symm, ?_⟩
    by_contra hne
    have h4 := ctx.a_in hi (by omega) (by omega)
    have h5 := ctx.a_out (lo - 1) (by omega)
    omega
  · omega

end Tree

/-- The leaf `g` is a child of the node of `i` exactly when the range of the node
starts at its split `g` (left child) or ends right after its split at `g` (right
child). -/
theorem processNode_hasLeaf (W : Nat) (keys : List Nat) (i g : Int) :
    (processNode W keys i).hasLeaf g ↔
      ((processNode W keys i).lo = (processNode W keys i).split ∧
        (processNode W keys i).split = g) ∨
      ((processNode W keys i).hi = (processNode W keys i).split + 1 ∧
        (processNode W keys i).split + 1 = g) := by
  unfold RadixNode.hasLeaf
  rw [processNode_left, processNode_right]
  constructor
  · rintro (h | h)
    · left
      split at h
      · rename_i hc
        exact ⟨hc, by injection h⟩
      · cases h
    · right
      split at h
      · rename_i hc
        exact ⟨hc, by injection h⟩
      · cases h
  · rintro (⟨h1, h2⟩ | ⟨h1, h2⟩)
    · left
      rw [if_pos h1, h2]
    · right
      rw [if_pos h1, h2]

theorem buildRadixTree_length (W : Nat) (keys : List Nat) :
    (buildRadixTree W keys).length = keys.length - 1 := by
  unfold buildRadixTree
  rw [List.length_map, List.length_range]

/-- The node at the index `i` of the tree is the node computed by the task of `i`, up
to the parent back-reference. -/
theorem buildRadixTree_getElem? (W : Nat) (keys : List Nat) (i : Nat)
    (hi : i < keys.length - 1) :
    ∃ nd, (buildRadixTree W keys)[i]? = some nd ∧
      nd.parent = parentOf ((List.range (keys.length - 1)).map
        (fun (k : Nat) => processNode W keys (Int.ofNat k))) (Int.ofNat i) ∧
      nd.lo = (processNode W keys (i : Int)).lo ∧
      nd.hi = (processNode W keys (i : Int)).hi ∧
      nd.left = (processNode W keys (i : Int)).left ∧
      nd.right = (processNode W keys (i : Int)).right := by
  unfold buildRadixTree
  rw [List.getElem?_map, List.getElem?_range hi]
  exact ⟨_, rfl, rfl, rfl, rfl, rfl, rfl⟩

theorem buildRadixTree_getElem?_some (W : Nat) (keys : List Nat) (i : Nat) (nd : RadixNode)
    (h : (buildRadixTree W keys)[i]? = some nd) :
    i < keys.length - 1 ∧ nd.left = (processNode W keys (i : Int)).left ∧
      nd.right = (processNode W keys (i : Int)).right := by
  have hlt : i < keys.length - 1 := by
    have := (List.getElem?_eq_some_iff.mp h).1
    rw [buildRadixTree_length] at this
    exact this
  obtain ⟨nd', hnd', -, -, -, hl, hr⟩ := buildRadixTree_getElem? W keys i hlt
  rw [hnd'] at h
  injection h with h
  subst h
  exact ⟨hlt, hl, hr⟩

theorem hasLeaf_congr (nd nd' : RadixNode) (g : Int) (hl : nd.left = nd'.left)
    (hr : nd.right = nd'.right) : nd.hasLeaf g ↔ nd'.hasLeaf g := by
  unfold RadixNode.hasLeaf
  rw [hl, hr]

/-- The internal node `0` is the child of no node described by `NodeChar`. -/
theorem NodeChar.not_parent_of_zero {a : Int → Int} {M i lo hi gamma : Int}
    (h : NodeChar a M i lo hi gamma) :
    ¬ (lo ≠ gamma ∧ gamma = 0) ∧ ¬ (hi ≠ gamma + 1 ∧ gamma + 1 = 0) := by
  obtain ⟨h0, h1, h2, h3, -⟩ := h
  constructor
  · rintro ⟨hne, hz⟩
    omega
  · rintro ⟨hne, hz⟩
    omega

theorem processNode_internal (W : Nat) (keys : List Nat) (i c : Int) :
    ((processNode W keys i).left = .internal c ∨ (processNode W keys i).right = .internal c) →
      ((processNode W keys i).lo ≠ (processNode W keys i).split ∧
        (processNode W keys i).split = c) ∨
      ((processNode W keys i).hi ≠ (processNode W keys i).split + 1 ∧
        (processNode W keys i).split + 1 = c) := by
  rw [processNode_left, processNode_right]
  rintro (h | h)
  · left
    split at h
    · cases h
    · rename_i hc
      exact ⟨hc, by injection h⟩
  · right
    split at h
    · cases h
    · rename_i hc
      exact ⟨hc, by injection h⟩

/-- The radix tree over `M ≥ 2` strictly increasing keys of `W` bits: `M - 1` nodes,
every leaf the child of exactly one node, the node `0` without a parent and with the
range `[0, M-1]`. -/
theorem buildRadixTree_shape (W : Nat) (keys : List Nat) (hM : 2 ≤ keys.length)
    (hs : keys.Pairwise (· < ·)) (hb : ∀ k ∈ keys, k < 2 ^ W) :
    (buildRadixTree W keys).length = keys.length - 1 ∧
    (∀ g : Nat, g < keys.length →
      ∃! i : Nat, ∃ nd, (buildRadixTree W keys)[i]? = some nd ∧ nd.hasLeaf (g : Int)) ∧
    ∃ root, (buildRadixTree W keys)[0]? = some root ∧ root.parent = none ∧ root.lo = 0 ∧
      root.hi = (keys.length : Int) - 1 := by
  have ctx := radixCtx_of_keys W keys hM hs hb
  have hnode : ∀ i : Nat, i < keys.length - 1 →
      NodeChar (adjacent W keys) keys.length i (processNode W keys i).lo
        (processNode W keys i).hi (processNode W keys i).split :=
    fun i hi => processNode_char W keys _ ctx i (by omega) (by omega)
  refine ⟨buildRadixTree_length W keys, ?_, ?_⟩
  · intro g hg
    -- the two neighbour prefix lengths of the leaf differ
    have hne : adjacent W keys ((g : Int) - 1) ≠ adjacent W keys g := by
      by_cases hlast : (g : Int) = keys.length - 1
      · have h1 := ctx.a_out (g : Int) (by omega)
        have h2 := ctx.a_in ((g : Int) - 1) (by omega) (by omega)
        omega
      · exact ctx.adj_ne g (by omega) (by omega)
    -- a parent exists
    have hex : ∃ i : Nat, i < keys.length - 1 ∧ (processNode W keys i).hasLeaf (g : Int) := by
      rcases lt_or_gt_of_ne hne with hlt | hgt
      · have hgM : (g : Int) < keys.length - 1 := by
          by_contra hout
          have h1 := ctx.a_out (g : Int) (by omega)
          have h2 := ctx.a_ge ((g : Int) - 1)
          omega
        obtain ⟨i, hi, hi0, hiM, hchar⟩ := ctx.exists_left_parent g (by omega) hgM hlt
        obtain ⟨n, rfl⟩ := Int.eq_ofNat_of_zero_le hi0
        have hn : n < keys.length - 1 := by omega
        obtain ⟨e1, -, e3⟩ := (hnode n hn).unique hchar
        refine ⟨n, hn, ?_⟩
        rw [processNode_hasLeaf]
        left
        exact ⟨by rw [e1, e3], e3⟩
      · have hg1 : (1 : Int) ≤ g := by
          by_contra hout
          have h1 := ctx.a_out ((g : Int) - 1) (by omega)
          have h2 := ctx.a_ge (g : Int)
          omega
        obtain ⟨i, lo, hi0, hiM, hchar⟩ := ctx.exists_right_parent g hg1 (by omega) hgt
        obtain ⟨n, rfl⟩ := Int.eq_ofNat_of_zero_le hi0
        have hn : n < keys.length - 1 := by omega
        obtain ⟨-, e2, e3⟩ := (hnode n hn).unique hchar
        refine ⟨n, hn, ?_⟩
        rw [processNode_hasLeaf]
        right
        exact ⟨by rw [e2, e3]; omega, by rw [e3]; omega⟩
    obtain ⟨i, hi, hleaf⟩ := hex
    obtain ⟨nd0, hnd0, -, -, -, hl0, hr0⟩ := buildRadixTree_getElem? W keys i hi
    refine ⟨i, ⟨nd0, hnd0, (hasLeaf_congr _ _ _ hl0 hr0).mpr hleaf⟩, ?_⟩
    rintro i' ⟨nd, hnd, hleaf'⟩
    obtain ⟨hi', hl, hr⟩ := buildRadixTree_getElem?_some W keys i' nd hnd
    rw [hasLeaf_congr _ _ _ hl hr] at hleaf'
    rw [processNode_hasLeaf] at hleaf hleaf'
    have := ctx.parent_unique (g : Int) (hnode i' hi') (hnode i hi) (by omega) (by omega)
      hleaf' hleaf
    omega
  · obtain ⟨nd0, hnd0, hpar, hlo, hhi, -, -⟩ := buildRadixTree_getElem? W keys 0 (by omega)
    refine ⟨nd0, hnd0, ?_, ?_⟩
    · rw [hpar]
      unfold parentOf
      rw [Option.map_eq_none', List.findIdx?_eq_none_iff]
      intro nd hmem
      obtain ⟨k, hk, rfl⟩ := List.mem_map.mp hmem
      have hk' : k < keys.length - 1 := List.mem_range.mp hk
      simp only [decide_eq_false_iff_not]
      intro hchild
      have hc := processNode_internal W keys (Int.ofNat k) (Int.ofNat 0) hchild
      have hn := (hnode k hk').not_parent_of_zero
      rcases hc with hc | hc
      · exact hn.1 hc
      · exact hn.2 hc
    · have h0 := hnode 0 (by omega)
      rw [hlo, hhi]
      exact ctx.root_range h0

/-- C7: on a pipe that holds `M ≥ 2` unique sorted keys (strictly increasing, each of
`keyWidth` bits), the radix-tree stage `dispatch_BuildRadixTree` produces exactly `M - 1`
internal nodes, every leaf index `0..M-1` is a child of exactly one internal node, and
the root (node 0, which has no parent) has the key range `[0, M-1]`. -/
theorem radix_tree_shape (grid_size stream_id : Int) (p : pipe)
    (hn : p.n_unique = p.unique_keys.length) (hM : 2 ≤ p.n_unique)
    (hs : p.unique_keys.Pairwise (· < ·))
    (hb : ∀ k ∈ p.unique_keys, k < 2 ^ p.keyWidth) :
    (dispatch_BuildRadixTree grid_size stream_id p).brt.length = p.n_unique - 1 ∧
    (∀ g : Nat, g < p.n_unique →
      ∃! i : Nat, ∃ nd, (dispatch_BuildRadixTree grid_size stream_id p).brt[i]? = some nd ∧
        nd.hasLeaf (g : Int)) ∧
    ∃ root, (dispatch_BuildRadixTree grid_size stream_id p).brt[0]? = some root ∧
      root.parent = none ∧ root.lo = 0 ∧ root.hi = (p.n_unique : Int) - 1 := by
  have hkeys : p.unique_keys.take p.n_unique = p.unique_keys := by
    rw [hn]
    exact List.take_length _
  have hbrt : (dispatch_BuildRadixTree grid_size stream_id p).brt
      = buildRadixTree p.keyWidth p.unique_keys := by
    simp only [dispatch_BuildRadixTree, hkeys]
  rw [hbrt, hn]
  exact buildRadixTree_shape p.keyWidth p.unique_keys (by omega) hs hb

/-- Witness of C7: the eight 5-bit keys `1, 2, 4, 5, 19, 24, 25, 30`. -/
theorem radix_tree_shape_witness :
    (finalizedPipe 5 [1, 2, 4, 5, 19, 24, 25, 30]).n_unique
      = (finalizedPipe 5 [1, 2, 4, 5, 19, 24, 25, 30]).unique_keys.length ∧
    2 ≤ (finalizedPipe 5 [1, 2, 4, 5, 19, 24, 25, 30]).n_unique ∧
    (finalizedPipe 5 [1, 2, 4, 5, 19, 24, 25, 30]).unique_keys.Pairwise (· < ·) ∧
    (∀ k ∈ (finalizedPipe 5 [1, 2, 4, 5, 19, 24, 25, 30]).unique_keys,
      k < 2 ^ (finalizedPipe 5 [1, 2, 4, 5, 19, 24, 25, 30]).keyWidth) ∧
    (dispatch_BuildRadixTree 256 0
      (finalizedPipe 5 [1, 2, 4, 5, 19, 24, 25, 30])).brt.length = 8 - 1 ∧
    (∀ g : Nat, g < 8 →
      ∃! i : Nat, ∃ nd, (dispatch_BuildRadixTree 256 0
        (finalizedPipe 5 [1, 2, 4, 5, 19, 24, 25, 30])).brt[i]? = some nd ∧
        nd.hasLeaf (g : Int)) ∧
    ∃ root, (dispatch_BuildRadixTree 256 0
        (finalizedPipe 5 [1, 2, 4, 5, 19, 24, 25, 30])).brt[0]? = some root ∧
      root.parent = none ∧ root.lo = 0 ∧ root.hi = ((8 : Nat) : Int) - 1 :=
  ⟨rfl, by decide, by decide, by decide,
    radix_tree_shape 256 0 (finalizedPipe 5 [1, 2, 4, 5, 19, 24, 25, 30]) rfl (by decide)
      (by decide) (by decide)⟩

end gpu
